import Mathlib

set_option maxRecDepth 10000

/-!
Verification development for the just-latex fragment renderer.

This file gives a shallow embedding, in Lean, of the two core subsystems of
the program:

* the Position Resolution Engine of `src/main.rs` (SyncTeX box accumulation
  into per-page regions, x-range and y-range refinement against SVG bounding
  boxes, fragment resolution and image emission), together with the fragment
  collection of `FragmentRenderer::add_fragment`;
* the Path Deduplication Optimizer of `src/svgopt.rs` (path fingerprints,
  the tolerant trie `PathTree`, style comparison, the classification pass of
  `optimize`, and the rewrite pass that emits `use` references).

Numeric values that are `f64` in the source are modelled as rational numbers
(`ℚ`): the claims under study are about the branch structure and the exact
arithmetic expressions of the code, not about floating-point rounding, and
every concrete input exercised below is exactly representable.  Rust's
`panic!`/`unwrap` is modelled by `Option`/`Except`.  Each definition mirrors
one function (or one clearly delimited block) of the Rust source, named after
it where Lean's naming rules allow.
-/

namespace JustLatex

/-! ### Geometry: bounding boxes and range refinement (`src/main.rs`) -/

/-- Scale factor from TeX points to SVG units, `TEX2SVG_SCALING` in
`render_with_latex`: `72.0 / 72.27`. -/
def TEX2SVG_SCALING : ℚ := 72 / (7227 / 100)

/-- Model of `usvg::PathBbox`: an axis-aligned rectangle stored as origin
plus size, as produced by the geometry index `svg_to_bboxes`. -/
structure PathBbox where
  x : ℚ
  y : ℚ
  width : ℚ
  height : ℚ
deriving DecidableEq

/-- Accessor `PathBbox::left`. -/
def PathBbox.left (b : PathBbox) : ℚ := b.x

/-- Accessor `PathBbox::right`. -/
def PathBbox.right (b : PathBbox) : ℚ := b.x + b.width

/-- Accessor `PathBbox::top`. -/
def PathBbox.top (b : PathBbox) : ℚ := b.y

/-- Accessor `PathBbox::bottom`. -/
def PathBbox.bottom (b : PathBbox) : ℚ := b.y + b.height

/-- Intersection test used by both refinement functions in `main.rs`:
`y_min.max(bbox.top()) <= y_max.min(bbox.bottom())`, applied after the
caller has already expanded `y_min`/`y_max` by the tolerance. -/
def yHit (y_min y_max : ℚ) (b : PathBbox) : Bool :=
  decide (max y_min b.top ≤ min y_max b.bottom)

/-- One iteration of the bounding-box loops of `x_range_for_y_range` and
`refine_y_range`, which share their structure: on an intersecting box,
accumulate the interval `[f b, g b]` (`f`/`g` are `left`/`right` for the
x-range pass and `top`/`bottom` for the y-range pass); the `Option`
accumulator plays the role of the Rust `f64::MAX`/`f64::MIN` sentinel
pair. -/
def rangeFold (lo hi : ℚ) (f g : PathBbox → ℚ) (acc : Option (ℚ × ℚ))
    (b : PathBbox) : Option (ℚ × ℚ) :=
  if yHit lo hi b then
    match acc with
    | none => some (f b, g b)
    | some lohi => some (min lohi.1 (f b), max lohi.2 (g b))
  else acc

/-- Model of `x_range_for_y_range` (`main.rs`): the tight union of the
horizontal extents of the boxes intersecting the tolerance-expanded
y-range, widened by `margin`, or `None` when no box intersects. -/
def x_range_for_y_range (bboxes : List PathBbox) (y_min y_max tol margin : ℚ) :
    Option (ℚ × ℚ) :=
  let y_min := y_min - tol
  let y_max := y_max + tol
  (bboxes.foldl (rangeFold y_min y_max PathBbox.left PathBbox.right) none).map
    (fun lohi => (lohi.1 - margin, lohi.2 + margin))

/-- Model of `refine_y_range` (`main.rs`).  Note that the Rust function
shadows `y_min`/`y_max` with their tolerance-expanded values before the
loop, so the fallback `(y_min + tol - margin, y_max - tol + margin)` is
expressed in the shadowed variables. -/
def refine_y_range (bboxes : List PathBbox) (y_min y_max tol margin : ℚ) :
    ℚ × ℚ :=
  let y_min := y_min - tol
  let y_max := y_max + tol
  match bboxes.foldl (rangeFold y_min y_max PathBbox.top PathBbox.bottom) none with
  | none => (y_min + tol - margin, y_max - tol + margin)
  | some lohi => (lohi.1 - margin, lohi.2 + margin)

/-- The x-range computation of `render_with_latex` (lines 327-334): call
`x_range_for_y_range` on the already-converted y-range and fall back, via
`unwrap_or`, to the typesetting-derived x-range scaled by
`TEX2SVG_SCALING`. -/
def xRangeStep (bboxes : List PathBbox) (x_range y_range : ℚ × ℚ)
    (tol margin : ℚ) : ℚ × ℚ :=
  (x_range_for_y_range bboxes y_range.1 y_range.2 tol margin).getD
    (x_range.1 * TEX2SVG_SCALING, x_range.2 * TEX2SVG_SCALING)

/-! ### Position boxes and region accumulation (`src/main.rs`) -/

/-- Model of `synctex::TeXBox` as consumed by `render_with_latex`: the
coordinates reported by the SyncTeX scanner (already divided by 65536) plus
the page number. -/
structure TeXBox where
  h : ℚ
  v : ℚ
  height : ℚ
  width : ℚ
  depth : ℚ
  page : ℕ
deriving DecidableEq

/-- Model of the local `struct Region` of `render_with_latex`. -/
structure Region where
  x_range : ℚ × ℚ
  y_range : ℚ × ℚ
  baseline : ℚ
  baseline_width : ℚ
deriving DecidableEq

/-- The zero-area filter of `render_with_latex` (line 260-261): a box is
skipped when `width * (height + depth) <= 1e-6`. -/
def smallArea (tb : TeXBox) : Bool :=
  decide (tb.width * (tb.height + tb.depth) ≤ 1 / 1000000)

/-- The `or_insert_with` branch of the region accumulation: the region made
from a single box. -/
def newRegion (tb : TeXBox) : Region :=
  { x_range := (tb.h, tb.h + tb.width)
    y_range := (tb.v - tb.height, tb.v + tb.depth)
    baseline := tb.v
    baseline_width := tb.width }

/-- The `and_modify` branch of the region accumulation: extend the ranges by
the box extent and keep the widest box seen so far as the baseline proxy
(strictly wider boxes replace it). -/
def foldBoxIntoRegion (r : Region) (tb : TeXBox) : Region :=
  let x_low := tb.h
  let x_high := tb.h + tb.width
  let y_low := tb.v - tb.height
  let y_high := tb.v + tb.depth
  { x_range := (min r.x_range.1 x_low, max r.x_range.2 x_high)
    y_range := (min r.y_range.1 y_low, max r.y_range.2 y_high)
    baseline := if r.baseline_width < tb.width then tb.v else r.baseline
    baseline_width := if r.baseline_width < tb.width then tb.width else r.baseline_width }

/-- Model of `regions.entry(tb.page).and_modify(..).or_insert_with(..)`
on the `BTreeMap<u32, Region>`: the association list is kept sorted by page
number, mirroring the B-tree's key order. -/
def updateRegions : List (ℕ × Region) → TeXBox → List (ℕ × Region)
  | [], tb => [(tb.page, newRegion tb)]
  | (pg, r) :: rest, tb =>
    if tb.page = pg then (pg, foldBoxIntoRegion r tb) :: rest
    else if tb.page < pg then (tb.page, newRegion tb) :: (pg, r) :: rest
    else (pg, r) :: updateRegions rest tb

/-- State of the box-accumulation loop of `render_with_latex` (lines
258-295): the per-page regions, the global `seen_boxes` set (modelled as the
list of boxes inserted so far), and — purely as the image of the two filters
— the list of boxes that were actually folded into a region. -/
structure ScanState where
  regions : List (ℕ × Region)
  seen : List TeXBox
  folded : List TeXBox
deriving DecidableEq

/-- One iteration of the box loop: skip boxes of area `≤ 1e-6`, skip boxes
already in `seen_boxes`, otherwise record the box as seen and fold it into
its page's region. -/
def scanBox (st : ScanState) (tb : TeXBox) : ScanState :=
  if smallArea tb then st
  else if tb ∈ st.seen then st
  else
    { regions := updateRegions st.regions tb
      seen := st.seen ++ [tb]
      folded := st.folded ++ [tb] }

/-- The whole accumulation loop over the boxes returned by the scanner for
all lines of one fragment, starting from a given `seen_boxes` set. -/
def accumulateBoxes (boxes : List TeXBox) (seen0 : List TeXBox) : ScanState :=
  boxes.foldl scanBox { regions := [], seen := seen0, folded := [] }

/-- The boxes of one fragment that pass both filters and are folded into a
region. -/
def foldedBoxes (boxes : List TeXBox) (seen0 : List TeXBox) : List TeXBox :=
  (accumulateBoxes boxes seen0).folded

/-! ### Fragment types and fragment resolution (`src/main.rs`) -/

/-- Model of `enum FragmentType`; `DontShow` corresponds to the Rust
variant of the same name (spec name: Suppressed). -/
inductive FragmentType where
  | inlineMath
  | displayMath
  | rawBlock
  | dontShow
deriving DecidableEq

/-- Output image descriptor: the numeric content of the `<img>` viewBox
emitted per page (page number, x, y, width, height and the depth used for
vertical alignment), before string formatting. -/
structure ImgDesc where
  page : ℕ
  x : ℚ
  y : ℚ
  width : ℚ
  height : ℚ
  depth : ℚ
deriving DecidableEq

/-- The per-fragment-class configuration values consumed by the region
rendering code. -/
structure RenderConfig where
  y_range_tol : ℚ
  x_range_margin : ℚ
  y_range_margin : ℚ
  baseline_rise : ℚ
deriving DecidableEq

/-- The depth computation of `render_with_latex` (lines 347-351): InlineMath
uses `y_range.1 - baseline`, DisplayMath and RawBlock use `0`.  The
`DontShow` arm is `unreachable!()` in Rust (such fragments are skipped
before this point); it is mapped to `0` here. -/
def fragmentDepth (ty : FragmentType) (y_range : ℚ × ℚ) (baseline : ℚ) : ℚ :=
  match ty with
  | .inlineMath => y_range.2 - baseline
  | .displayMath => 0
  | .rawBlock => 0
  | .dontShow => 0

/-- The per-page body of the `for (page, Region ..)` loop of
`render_with_latex` (lines 310-365), up to HTML formatting: convert the
region from TeX to SVG coordinates using the page top offset, refine the
x-range (with fallback to the scaled typesetting x-range), refine the
y-range for DisplayMath/RawBlock, and compute the image descriptor.
`pageTop pg` stands for `svgs[page-1].svg_node().view_box.rect.top()` and
`bboxesOf pg` for `bboxes[page-1]`. -/
def renderRegion (cfg : RenderConfig) (bboxesOf : ℕ → List PathBbox)
    (pageTop : ℕ → ℚ) (ty : FragmentType) (pg : ℕ) (r : Region) : ImgDesc :=
  let y_base := pageTop pg
  let y_range :=
    (r.y_range.1 * TEX2SVG_SCALING + y_base, r.y_range.2 * TEX2SVG_SCALING + y_base)
  let x_range := xRangeStep (bboxesOf pg) r.x_range y_range cfg.y_range_tol cfg.x_range_margin
  let baseline := r.baseline * TEX2SVG_SCALING + y_base
  let y_range :=
    if ty = .displayMath ∨ ty = .rawBlock then
      refine_y_range (bboxesOf pg) y_range.1 y_range.2 cfg.y_range_tol cfg.y_range_margin
    else y_range
  let depth := fragmentDepth ty y_range baseline
  { page := pg
    x := x_range.1
    y := y_range.1
    width := x_range.2 - x_range.1
    height := y_range.2 - y_range.1
    depth := depth - cfg.baseline_rise }

/-- The resolution step of `render_with_latex` (lines 298-365) for one
fragment, given its accumulated per-page regions: fail when no page
accumulated a box (`bail!("no boxes for ..")`), fail when an InlineMath
fragment spans more than one page, otherwise emit one image descriptor per
page. -/
def resolveFragment (cfg : RenderConfig) (bboxesOf : ℕ → List PathBbox)
    (pageTop : ℕ → ℚ) (ty : FragmentType) (regions : List (ℕ × Region)) :
    Except String (List ImgDesc) :=
  if regions.isEmpty then .error "no boxes for fragment"
  else if ty = .inlineMath ∧ 1 < regions.length then
    .error "inline fragment spans multiple pages"
  else .ok (regions.map (fun pr => renderRegion cfg bboxesOf pageTop ty pr.1 pr.2))

/-! ### Fragment collection (`FragmentRenderer::add_fragment`) -/

/-- Model of `struct Fragment`: the owning node handles are opaque
identifiers here. -/
structure Fragment where
  ty : FragmentType
  src : String
  refs : List ℕ
deriving DecidableEq

/-- Model of Rust's `str::trim` on both ends, writing out the character-list
computation (Lean's own `String.trim` is extensionally the same but is
defined through byte positions, which do not reduce). -/
def strTrim (s : String) : String :=
  ⟨((s.data.dropWhile Char.isWhitespace).reverse.dropWhile Char.isWhitespace).reverse⟩

/-- The InlineMath arm of `add_fragment`: scan the collected fragments in
order; the first InlineMath fragment with the same (trimmed) source text
receives the new node reference, otherwise a new fragment is appended. -/
def addInlineRef (src : String) (node : ℕ) : List Fragment → List Fragment
  | [] => [{ ty := .inlineMath, src := src, refs := [node] }]
  | f :: rest =>
    if f.ty = .inlineMath ∧ f.src = src then
      { ty := f.ty, src := f.src, refs := f.refs ++ [node] } :: rest
    else f :: addInlineRef src node rest

/-- Model of `FragmentRenderer::add_fragment` (`main.rs` lines 82-112). -/
def add_fragment (fs : List Fragment) (ty : FragmentType) (src : String)
    (node : ℕ) : List Fragment :=
  match ty with
  | .inlineMath => addInlineRef (strTrim src) node fs
  | _ => fs ++ [{ ty := ty, src := strTrim src, refs := [node] }]

/-! ### Path model and styles (`src/svgopt.rs`, `usvg` types) -/

/-- Model of the `PathCommand` enum. -/
inductive PathCommand where
  | moveTo
  | lineTo
  | curveTo
  | closePath
deriving DecidableEq

/-- Model of `PathFingerprintElement`: a command token or a coordinate. -/
inductive FPElem where
  | cmd (c : PathCommand)
  | coord (x : ℚ)
deriving DecidableEq

/-- Model of `usvg::PathSegment`. -/
inductive PathSegment where
  | moveTo (x y : ℚ)
  | lineTo (x y : ℚ)
  | curveTo (x1 y1 x2 y2 x y : ℚ)
  | closePath
deriving DecidableEq

/-- Model of `usvg::Transform` (an affine 2×3 matrix). -/
structure Transform where
  a : ℚ
  b : ℚ
  c : ℚ
  d : ℚ
  e : ℚ
  f : ℚ
deriving DecidableEq

/-- `usvg::Transform::apply`. -/
def Transform.applyTo (t : Transform) (x y : ℚ) : ℚ × ℚ :=
  (t.a * x + t.c * y + t.e, t.b * x + t.d * y + t.f)

/-- The identity transform. -/
def Transform.ident : Transform := ⟨1, 0, 0, 1, 0, 0⟩

/-- Model of `usvg::Paint`: a solid colour (RGB) or a link to a server. -/
inductive Paint where
  | color (r g b : ℕ)
  | link (s : String)
deriving DecidableEq

/-- Model of `usvg::FillRule`. -/
inductive FillRule where
  | nonzero
  | evenodd
deriving DecidableEq

/-- Model of `usvg::LineCap`. -/
inductive LineCap where
  | butt
  | round
  | square
deriving DecidableEq

/-- Model of `usvg::LineJoin`. -/
inductive LineJoin where
  | miter
  | round
  | bevel
deriving DecidableEq

/-- Model of `usvg::ShapeRendering`. -/
inductive ShapeRendering where
  | optimizeSpeed
  | crispEdges
  | geometricPrecision
deriving DecidableEq

/-- Model of `usvg::Visibility`. -/
inductive Visibility where
  | visible
  | hidden
  | collapse
deriving DecidableEq

/-- Model of `usvg::Fill` (the fields compared by `same_style`). -/
structure Fill where
  paint : Paint
  opacity : ℚ
  rule : FillRule
deriving DecidableEq

/-- Model of `usvg::Stroke` (the fields compared by `same_style`). -/
structure Stroke where
  paint : Paint
  dashoffset : ℚ
  dasharray : Option (List ℚ)
  miterlimit : ℚ
  opacity : ℚ
  linecap : LineCap
  linejoin : LineJoin
deriving DecidableEq

/-- Model of `usvg::Path` as consumed by the optimizer: the numeric `id`
stands for the index prefix the optimizer writes into the textual id. -/
structure SPath where
  id : ℕ
  transform : Transform
  data : List PathSegment
  fill : Option Fill
  stroke : Option Stroke
  rendering_mode : ShapeRendering
  visibility : Visibility
deriving DecidableEq

/-- `same_paint` from `same_style` in `svgopt.rs`. -/
def same_paint : Paint → Paint → Bool
  | .color r g b, .color r' g' b' => decide (r = r' ∧ g = g' ∧ b = b')
  | .link s, .link s' => decide (s = s')
  | _, _ => false

/-- The stroke comparison of `same_style`: paints equal, dash offset and
dash array within `eps` (note the Rust `zip` compares only the common
prefix of the two dash arrays), all remaining attributes exactly equal;
or both strokes absent. -/
def same_stroke (a b : Option Stroke) (eps : ℚ) : Bool :=
  match a, b with
  | some a, some b =>
    let same_dashoffset := decide (|a.dashoffset - b.dashoffset| ≤ eps)
    let same_dasharray :=
      match a.dasharray, b.dasharray with
      | some da, some db => (da.zip db).all (fun pr => decide (|pr.1 - pr.2| ≤ eps))
      | none, none => true
      | _, _ => false
    same_paint a.paint b.paint && same_dashoffset && same_dasharray &&
      decide (a.linecap = b.linecap) && decide (a.linejoin = b.linejoin) &&
      decide (a.miterlimit = b.miterlimit) && decide (a.opacity = b.opacity)
  | none, none => true
  | _, _ => false

/-- The fill comparison of `same_style`: paint, opacity and fill rule equal,
or both fills absent. -/
def same_fill (a b : Option Fill) : Bool :=
  match a, b with
  | some a, some b =>
    same_paint a.paint b.paint && decide (a.opacity = b.opacity) && decide (a.rule = b.rule)
  | none, none => true
  | _, _ => false

/-- Model of `same_style` (`svgopt.rs` lines 155-193). -/
def same_style (a b : SPath) (eps : ℚ) : Bool :=
  same_stroke a.stroke b.stroke eps && same_fill a.fill b.fill &&
    decide (a.rendering_mode = b.rendering_mode) && decide (a.visibility = b.visibility)

/-! ### Path fingerprints (`PathFingerprint::new`) -/

/-- Model of `struct PathFingerprint`. -/
structure PathFingerprint where
  elems : List FPElem
  shift : ℚ × ℚ
deriving DecidableEq

/-- One iteration of the segment loop of `PathFingerprint::new`: apply the
path transform, initialise the shift origin on the first resolved point of a
drawing segment (`shift.get_or_insert`), and append the command token and
the origin-relative coordinates. -/
def fpStep (tr : Transform) (acc : Option (ℚ × ℚ) × List FPElem)
    (seg : PathSegment) : Option (ℚ × ℚ) × List FPElem :=
  match seg with
  | .moveTo x y =>
    let p := tr.applyTo x y
    let s := acc.1.getD p
    (some s, acc.2 ++ [.cmd .moveTo, .coord (p.1 - s.1), .coord (p.2 - s.2)])
  | .lineTo x y =>
    let p := tr.applyTo x y
    let s := acc.1.getD p
    (some s, acc.2 ++ [.cmd .lineTo, .coord (p.1 - s.1), .coord (p.2 - s.2)])
  | .curveTo x1 y1 x2 y2 x y =>
    let p1 := tr.applyTo x1 y1
    let p2 := tr.applyTo x2 y2
    let p := tr.applyTo x y
    let s := acc.1.getD p
    (some s, acc.2 ++
      [.cmd .curveTo, .coord (p1.1 - s.1), .coord (p1.2 - s.2),
       .coord (p2.1 - s.1), .coord (p2.2 - s.2),
       .coord (p.1 - s.1), .coord (p.2 - s.2)])
  | .closePath => (acc.1, acc.2 ++ [.cmd .closePath])

/-- Model of `PathFingerprint::new`.  The Rust function ends in
`shift.unwrap()`, which panics when no `MoveTo`/`LineTo`/`CurveTo` segment
ever initialised the shift origin; that partiality is modelled by returning
`none` in exactly that case. -/
def PathFingerprint.new (p : SPath) : Option PathFingerprint :=
  let r := p.data.foldl (fpStep p.transform) (none, [])
  r.1.map (fun s => { elems := r.2, shift := s })

/-! ### The tolerant trie (`PathTree`) -/

/-- Model of `struct PathTree`: command children (`HashMap`), coordinate
children (`BTreeMap`, kept sorted by key), and the paths whose whole
fingerprint ends at this node. -/
inductive PathTree : Type where
  | mk (cmd_nodes : List (PathCommand × PathTree))
       (coord_nodes : List (ℚ × PathTree))
       (paths : List SPath)

/-- Command children of a node. -/
def PathTree.cmd_nodes : PathTree → List (PathCommand × PathTree)
  | .mk cs _ _ => cs

/-- Coordinate children of a node. -/
def PathTree.coord_nodes : PathTree → List (ℚ × PathTree)
  | .mk _ ks _ => ks

/-- Paths stored at a node. -/
def PathTree.paths : PathTree → List SPath
  | .mk _ _ ps => ps

/-- `PathTree::default()`. -/
def PathTree.empty : PathTree := .mk [] [] []

/-- `HashMap::get` on the command children: first association with the
given key. -/
def getCmd (c : PathCommand) : List (PathCommand × PathTree) → Option PathTree
  | [] => none
  | (c', t) :: rest => if c' = c then some t else getCmd c rest

/-- `BTreeMap::get`-style exact lookup on the coordinate children. -/
def getCoord (x : ℚ) : List (ℚ × PathTree) → Option PathTree
  | [] => none
  | (x', t) :: rest => if x' = x then some t else getCoord x rest

/-- `HashMap::entry(..).or_insert_with(..)` followed by an update of the
entry's subtree: replace the value under the key, or append a fresh entry
(hash order is irrelevant to all lookups). -/
def updateCmd (c : PathCommand) (f : Option PathTree → PathTree) :
    List (PathCommand × PathTree) → List (PathCommand × PathTree)
  | [] => [(c, f none)]
  | (c', t) :: rest =>
    if c' = c then (c', f (some t)) :: rest else (c', t) :: updateCmd c f rest

/-- `BTreeMap::entry(..).or_insert_with(..)` followed by an update of the
entry's subtree: replace the value under the key, or insert a fresh entry at
its sorted position (the B-tree iterates keys in ascending order). -/
def updateCoord (x : ℚ) (f : Option PathTree → PathTree) :
    List (ℚ × PathTree) → List (ℚ × PathTree)
  | [] => [(x, f none)]
  | (x', t) :: rest =>
    if x' = x then (x', f (some t)) :: rest
    else if x < x' then (x, f none) :: (x', t) :: rest
    else (x', t) :: updateCoord x f rest

/-- Model of `PathTree::insert_slice`: walk the fingerprint elements,
branching on command tokens by equality and on coordinates by exact key,
creating default nodes on demand, and push the path at the terminal
node. -/
def insertSlice (p : SPath) : List FPElem → PathTree → PathTree
  | [], t => .mk t.cmd_nodes t.coord_nodes (t.paths ++ [p])
  | .cmd c :: rest, t =>
    .mk (updateCmd c (fun old => insertSlice p rest (old.getD PathTree.empty)) t.cmd_nodes)
      t.coord_nodes t.paths
  | .coord x :: rest, t =>
    .mk t.cmd_nodes
      (updateCoord x (fun old => insertSlice p rest (old.getD PathTree.empty)) t.coord_nodes)
      t.paths

/-- `BTreeMap::range((x - eps)..=(x + eps))` on the sorted coordinate
children: the sub-list of entries whose key lies in the inclusive window,
in ascending key order. -/
def coordRange (lo hi : ℚ) (ks : List (ℚ × PathTree)) : List (ℚ × PathTree) :=
  ks.filter (fun pr => decide (lo ≤ pr.1) && decide (pr.1 ≤ hi))

/-- Model of `PathTree::find_similar`.  The Rust function runs a DFS with an
explicit stack (`Vec::pop` takes the most recently pushed entry, and
in-range coordinate children are pushed in ascending key order, hence
explored in descending order) and returns the paths of the *first* node it
reaches with the fingerprint exhausted.  This function is that DFS written
as recursion on the remaining fingerprint: child branches are tried in
descending coordinate order and the first branch that completes wins;
`none` means this branch of the search dies out. -/
def findRec (eps : ℚ) : List FPElem → PathTree → Option (List SPath)
  | [], t => some t.paths
  | .cmd c :: rest, t =>
    match getCmd c t.cmd_nodes with
    | some child => findRec eps rest child
    | none => none
  | .coord x :: rest, t =>
    ((coordRange (x - eps) (x + eps) t.coord_nodes).reverse).foldl
      (fun acc pr =>
        match acc with
        | some r => some r
        | none => findRec eps rest pr.2)
      none

/-- `PathTree::find_similar` returns `&[]` when the whole stack is
exhausted without completing the fingerprint; the top-level wrapper turns
the `none` of the search into that empty slice. -/
def find_similar (t : PathTree) (fp : PathFingerprint) (eps : ℚ) : List SPath :=
  (findRec eps fp.elems t).getD []

/-! ### The optimizer pass (`optimize`, classification part) -/

/-- Model of the local `enum State` of `optimize`. -/
inductive PState where
  | standalone
  | referred
  | referring (id : ℕ)
deriving DecidableEq

/-- Truth of "this state is `Referring`". -/
def PState.isReferring : PState → Bool
  | .referring _ => true
  | _ => false

/-- The state of the classification loop: the trie and the
`states: Vec<(State, PathFingerprint)>`. -/
structure OptState where
  tree : PathTree
  states : List (PState × PathFingerprint)

/-- `states[p_id].0 = State::Referred`. -/
def markReferred : List (PState × PathFingerprint) → ℕ → List (PState × PathFingerprint)
  | [], _ => []
  | e :: rest, 0 => (PState.referred, e.2) :: rest
  | e :: rest, n + 1 => e :: markReferred rest n

/-- One iteration of the classification loop of `optimize` (lines 210-234):
assign the path its index as id, compute the fingerprint (`none` models the
`unwrap` panic of `PathFingerprint::new`), look up similar paths and take
the first with equal style; on a hit mark the original `Referred` and the
new path `Referring`, otherwise insert the fingerprint and mark the new
path `Standalone`. -/
def optStep (eps : ℚ) (st : OptState) (p : SPath) : Option OptState :=
  match PathFingerprint.new p with
  | none => none
  | some fp =>
    let idx := st.states.length
    let p' := { p with id := idx }
    match (find_similar st.tree fp eps).find? (fun s => same_style s p' eps) with
    | some similar =>
      some { tree := st.tree
             states := markReferred st.states similar.id ++ [(.referring similar.id, fp)] }
    | none =>
      some { tree := insertSlice p' fp.elems st.tree
             states := st.states ++ [(.standalone, fp)] }

/-- The classification pass of `optimize` over the leaf paths of one page,
in document order; returns the final `states` vector, or `none` when
`PathFingerprint::new` panics on some path. -/
def optimizePass (paths : List SPath) (eps : ℚ) :
    Option (List (PState × PathFingerprint)) :=
  (paths.foldlM (optStep eps) { tree := PathTree.empty, states := [] }).map OptState.states

/-! ### The rewrite pass (`optimize`, output part) -/

/-- Round to the nearest integer, ties to even — the rounding Rust's
`format!` with an explicit precision applies to the exact value. -/
def roundHalfEven (q : ℚ) : ℤ :=
  let fl := ⌊q⌋
  let frac := q - fl
  if frac < 1 / 2 then fl
  else if 1 / 2 < frac then fl + 1
  else if fl % 2 = 0 then fl else fl + 1

/-- Zero-padding of the three decimal digits. -/
def pad3 (n : ℕ) : String :=
  if n < 10 then "00" ++ toString n
  else if n < 100 then "0" ++ toString n
  else toString n

/-- Model of Rust's `format!("{:.3}", q)`: sign of the value, then the
value rounded (half to even) to three decimals. -/
def fmt3 (q : ℚ) : String :=
  let m := (roundHalfEven (|q| * 1000)).toNat
  (if q < 0 then "-" else "") ++ toString (m / 1000) ++ "." ++ pad3 (m % 1000)

/-- One element of the rewritten document body: a path emitted unchanged
(id prefix stripped), or a `use` reference with its `x`/`y` translation
attributes and the referenced definition id. -/
inductive OutItem where
  | pathItem (p : SPath)
  | useItem (x y : String) (href : ℕ)
deriving DecidableEq

/-- The rewrite of the path occurrence with index `id` (`optimize` lines
285-309): `Standalone` paths are emitted unchanged; `Referring` paths
become a `use` whose translation is `fp.shift - target.shift` formatted to
three decimals; `Referred` paths become a zero-translation `use` (and are
collected into the definitions block). -/
def rewriteItem (paths : List SPath) (states : List (PState × PathFingerprint))
    (id : ℕ) : OutItem :=
  match states[id]?, paths[id]? with
  | some (.standalone, _), some p => .pathItem p
  | some (.referring r, fp), _ =>
    let target := ((states[r]?).map Prod.snd).getD fp
    .useItem (fmt3 (fp.shift.1 - target.shift.1)) (fmt3 (fp.shift.2 - target.shift.2)) r
  | some (.referred, _), _ => .useItem "0" "0" id
  | _, _ => .useItem "0" "0" id

/-- The rewritten document: one output item per input path occurrence, in
document order, plus the ids collected into the `<defs>` block (`Referred`
paths, in document order). -/
def rewriteBody (paths : List SPath) (states : List (PState × PathFingerprint)) :
    List OutItem × List ℕ :=
  ((List.range states.length).map (rewriteItem paths states),
   (List.range states.length).filter
     (fun id => match states[id]? with
       | some (.referred, _) => true
       | _ => false))

/-- The leaf paths of the rewritten document, as a second optimizer run
would collect them: the paths emitted unchanged in the body followed by the
paths moved into the definitions block. -/
def outputPaths (paths : List SPath) (states : List (PState × PathFingerprint)) :
    List SPath :=
  ((rewriteBody paths states).1.filterMap
    (fun it => match it with
      | .pathItem p => some p
      | .useItem _ _ _ => none)) ++
  ((rewriteBody paths states).2.filterMap (fun id => paths[id]?))

/-! ### Derived notions used to state and prove properties -/

/-- Lookup in the per-page region map (first association wins; the map is
kept sorted with distinct keys, mirroring the `BTreeMap`). -/
def lookupPage : List (ℕ × Region) → ℕ → Option Region
  | [], _ => none
  | (pg', r) :: rest, pg => if pg' = pg then some r else lookupPage rest pg

/-- The accumulation of one page's boxes into its region, as an `Option`
fold: the first box creates the region, later boxes extend it. -/
def regionFold (acc : Option Region) (tb : TeXBox) : Option Region :=
  some (match acc with
    | none => newRegion tb
    | some r => foldBoxIntoRegion r tb)

/-- Covering half of the union property: the region's ranges contain the
box's extent, and its tracked maximal width dominates the box's width. -/
def regionCovers (r : Region) (b : TeXBox) : Prop :=
  r.x_range.1 ≤ b.h ∧ b.h + b.width ≤ r.x_range.2 ∧
  r.y_range.1 ≤ b.v - b.height ∧ b.v + b.depth ≤ r.y_range.2 ∧
  b.width ≤ r.baseline_width

/-- Tightness half of the union property: each bound of the region is
attained by one of the folded boxes, and the baseline is the `v` of a box
of maximal width. -/
def regionTight (r : Region) (l : List TeXBox) : Prop :=
  (∃ b ∈ l, r.x_range.1 = b.h) ∧ (∃ b ∈ l, r.x_range.2 = b.h + b.width) ∧
  (∃ b ∈ l, r.y_range.1 = b.v - b.height) ∧ (∃ b ∈ l, r.y_range.2 = b.v + b.depth) ∧
  (∃ b ∈ l, r.baseline = b.v ∧ r.baseline_width = b.width)

/-- Matching of one stored fingerprint element against one query element:
command tokens must be equal, a stored coordinate must lie in the query's
inclusive window `[x - eps, x + eps]` (the `BTreeMap::range` bounds used by
`find_similar`). -/
def keyMatches (eps : ℚ) : FPElem → FPElem → Bool
  | .cmd c, .cmd c' => decide (c = c')
  | .coord k, .coord x => decide (x - eps ≤ k) && decide (k ≤ x + eps)
  | _, _ => false

/-- Elementwise matching of a stored element sequence against a query
element sequence: same length, same command tokens, every stored coordinate
within `eps` of the corresponding query coordinate. -/
def matchesB (eps : ℚ) : List FPElem → List FPElem → Bool
  | [], [] => true
  | x :: xs, y :: ys => keyMatches eps x y && matchesB eps xs ys
  | _, _ => false

/-- The node reached from `t` by following the exact stored keys `es`, when
it exists. -/
def nodeAt : List FPElem → PathTree → Option PathTree
  | [], t => some t
  | .cmd c :: rest, t =>
    match getCmd c t.cmd_nodes with
    | some t' => nodeAt rest t'
    | none => none
  | .coord x :: rest, t =>
    match getCoord x t.coord_nodes with
    | some t' => nodeAt rest t'
    | none => none

/-- The paths stored at the node reached by the exact key sequence `es`
(empty when no such node exists). -/
def pathsAt (es : List FPElem) (t : PathTree) : List SPath :=
  match nodeAt es t with
  | some nd => nd.paths
  | none => []

/-- Well-formedness of a trie: the command map has no duplicate keys and
the coordinate map's keys are strictly ascending, recursively.  Rust's
`HashMap` cannot hold duplicate keys and the `BTreeMap` keeps its keys in
strictly ascending order; every tree produced by `insertSlice` from the
empty tree satisfies this. -/
inductive TreeWF : PathTree → Prop where
  | mk (cs : List (PathCommand × PathTree)) (ks : List (ℚ × PathTree))
      (ps : List SPath)
      (hcs : (cs.map Prod.fst).Nodup)
      (hks : List.Pairwise (fun a b : ℚ × PathTree => a.1 < b.1) ks)
      (hc : ∀ pr ∈ cs, TreeWF pr.2) (hk : ∀ pr ∈ ks, TreeWF pr.2) :
      TreeWF (.mk cs ks ps)

/-- The invariant tying the classification loop's state to the processed
prefix of the path list: the trie is well-formed; every recorded state
entry carries the fingerprint of the corresponding input path; every
non-root trie node lies on the branch of some non-`Referring` entry; every
path stored at a trie node is a recorded non-`Referring` path (with its
index as id) whose fingerprint elements are exactly the node's key
sequence; and conversely every non-`Referring` entry's path is stored at
the node of its fingerprint elements. -/
def OptInv (paths : List SPath) (st : OptState) : Prop :=
  TreeWF st.tree ∧
  (∀ (k : ℕ) (pr : PState × PathFingerprint), st.states[k]? = some pr →
    ∃ p, paths[k]? = some p ∧ PathFingerprint.new p = some pr.2) ∧
  (∀ (su : List FPElem) (m : PathTree), nodeAt su st.tree = some m → su ≠ [] →
    ∃ (k : ℕ) (pr : PState × PathFingerprint),
      st.states[k]? = some pr ∧ pr.1.isReferring = false ∧ su <+: pr.2.elems) ∧
  (∀ (su : List FPElem) (m : PathTree), nodeAt su st.tree = some m → ∀ q ∈ m.paths,
    ∃ (k : ℕ) (pr : PState × PathFingerprint) (p : SPath),
      st.states[k]? = some pr ∧ pr.1.isReferring = false ∧
      paths[k]? = some p ∧ pr.2.elems = su ∧ q = { p with id := k }) ∧
  (∀ (k : ℕ) (pr : PState × PathFingerprint), st.states[k]? = some pr →
    pr.1.isReferring = false →
    ∃ (p : SPath) (m : PathTree), paths[k]? = some p ∧ nodeAt pr.2.elems st.tree = some m ∧
      { p with id := k } ∈ m.paths)

/-! ### Concrete inputs used by scenarios, witnesses and counterexamples -/

/-- A solid black fill. -/
def fillBlack : Option Fill := some { paint := .color 0 0 0, opacity := 1, rule := .nonzero }

/-- A solid red fill. -/
def fillRed : Option Fill := some { paint := .color 255 0 0, opacity := 1, rule := .nonzero }

/-- The path `M0,0 L10,10` with a black fill. -/
def pathA : SPath :=
  { id := 0, transform := .ident, data := [.moveTo 0 0, .lineTo 10 10],
    fill := fillBlack, stroke := none,
    rendering_mode := .geometricPrecision, visibility := .visible }

/-- The path `M0,0 L10.05,10`, same style as `pathA` except a red fill. -/
def pathB : SPath :=
  { pathA with data := [.moveTo 0 0, .lineTo (1005 / 100) 10], fill := fillRed }

/-- The path `M5,5 L15,15` with a black fill: a pure translation of
`pathA` by `(5, 5)`. -/
def pathC : SPath :=
  { pathA with data := [.moveTo 5 5, .lineTo 15 15] }

/-- A path consisting of a single `ClosePath` segment. -/
def pathClose : SPath :=
  { pathA with data := [.closePath] }

/-- The fingerprint of `pathA` (and, up to the shift origin, of `pathC`). -/
def fpA : PathFingerprint :=
  { elems := [.cmd .moveTo, .coord 0, .coord 0, .cmd .lineTo, .coord 10, .coord 10],
    shift := (0, 0) }

/-- The fingerprint of `pathB`: it shares the prefix
`MoveTo 0 0 LineTo` with `fpA` but diverges at the first `LineTo`
coordinate (`10.05`). -/
def fpB : PathFingerprint :=
  { elems := [.cmd .moveTo, .coord 0, .coord 0, .cmd .lineTo,
      .coord (1005 / 100), .coord 10],
    shift := (0, 0) }

/-- The fingerprint of `pathC`: the same element sequence as `fpA`, shifted
origin `(5, 5)`. -/
def fpC : PathFingerprint :=
  { elems := [.cmd .moveTo, .coord 0, .coord 0, .cmd .lineTo, .coord 10, .coord 10],
    shift := (5, 5) }

/-- A bounding box far away from the y-ranges used in the refinement
counterexamples (top `100`, bottom `110`). -/
def bbFar : PathBbox := { x := 0, y := 100, width := 10, height := 10 }

/-- The scanner box of the Region-folding scenario:
`h=100, v=200, width=50, height=10, depth=2, page=1`. -/
def scBox : TeXBox := { h := 100, v := 200, height := 10, width := 50, depth := 2, page := 1 }

/-- The region the scenario expects: x-range `[100,150]`, y-range
`[190,202]`, baseline `200` (of the unique, hence widest, box). -/
def scRegion : Region :=
  { x_range := (100, 150), y_range := (190, 202), baseline := 200, baseline_width := 50 }

/-- A degenerate box with negative width and negative height+depth; its
area `(-1) * (-1) = 1` passes the `1e-6` area filter. -/
def negBox : TeXBox := { h := 0, v := 0, height := -2, width := -1, depth := 1, page := 1 }

/-- An InlineMath fragment with source `x+1` holding one node reference. -/
def fragX1 : Fragment := { ty := .inlineMath, src := "x+1", refs := [0] }

/-! ## Lemmas about the range-refinement folds -/

theorem rangeFold_miss (lo hi : ℚ) (f g : PathBbox → ℚ) (acc : Option (ℚ × ℚ))
    (b : PathBbox) (h : yHit lo hi b = false) : rangeFold lo hi f g acc b = acc := by
  simp [rangeFold, h]

theorem foldl_rangeFold_noHit (lo hi : ℚ) (f g : PathBbox → ℚ) :
    ∀ l : List PathBbox, (∀ b ∈ l, yHit lo hi b = false) →
      l.foldl (rangeFold lo hi f g) none = none
  | [], _ => rfl
  | b :: l, h => by
    rw [List.foldl_cons, rangeFold_miss lo hi f g none b (h b (List.mem_cons_self b l))]
    exact foldl_rangeFold_noHit lo hi f g l (fun b' hb' => h b' (List.mem_cons_of_mem _ hb'))

theorem foldl_rangeFold_some (lo hi : ℚ) (f g : PathBbox → ℚ) :
    ∀ (l : List PathBbox) (q0 : ℚ × ℚ),
      ∃ q, l.foldl (rangeFold lo hi f g) (some q0) = some q ∧
        (q.1 = q0.1 ∨ ∃ b ∈ l, yHit lo hi b = true ∧ q.1 = f b) ∧
        (q.2 = q0.2 ∨ ∃ b ∈ l, yHit lo hi b = true ∧ q.2 = g b) ∧
        q.1 ≤ q0.1 ∧ q0.2 ≤ q.2 ∧
        (∀ b ∈ l, yHit lo hi b = true → q.1 ≤ f b ∧ g b ≤ q.2)
  | [], q0 => ⟨q0, rfl, .inl rfl, .inl rfl, le_refl _, le_refl _, by simp⟩
  | b :: l, q0 => by
    by_cases hb : yHit lo hi b = true
    · obtain ⟨q, hq, h1, h2, h3, h4, h5⟩ :=
        foldl_rangeFold_some lo hi f g l (min q0.1 (f b), max q0.2 (g b))

      refine ⟨q, ?_, ?_, ?_, ?_, ?_, ?_⟩
      · rw [List.foldl_cons]; rw [show rangeFold lo hi f g (some q0) b =
          some (min q0.1 (f b), max q0.2 (g b)) by simp [rangeFold, hb]]; exact hq
      · rcases h1 with h1 | ⟨b', hb', hy, he⟩
        · rcases le_total q0.1 (f b) with hle | hle
          · exact .inl (by rw [h1]; exact min_eq_left hle)
          · exact .inr ⟨b, List.mem_cons_self b l, hb, by rw [h1]; exact min_eq_right hle⟩
        · exact .inr ⟨b', List.mem_cons_of_mem _ hb', hy, he⟩
      · rcases h2 with h2 | ⟨b', hb', hy, he⟩
        · rcases le_total (g b) q0.2 with hle | hle
          · exact .inl (by rw [h2]; exact max_eq_left hle)
          · exact .inr ⟨b, List.mem_cons_self b l, hb, by rw [h2]; exact max_eq_right hle⟩
        · exact .inr ⟨b', List.mem_cons_of_mem _ hb', hy, he⟩
      · exact le_trans h3 (min_le_left _ _)
      · exact le_trans (le_max_left _ _) h4
      · intro b' hb' hy
        rcases List.mem_cons.mp hb' with rfl | hb'
        · exact ⟨le_trans h3 (min_le_right _ _), le_trans (le_max_right _ _) h4⟩
        · exact h5 b' hb' hy
    · obtain ⟨q, hq, h1, h2, h3, h4, h5⟩ := foldl_rangeFold_some lo hi f g l q0
      refine ⟨q, ?_, ?_, ?_, h3, h4, ?_⟩
      · rw [List.foldl_cons,
          rangeFold_miss lo hi f g (some q0) b (Bool.eq_false_iff.mpr hb)]
        exact hq
      · rcases h1 with h1 | ⟨b', hb', hy, he⟩
        · exact .inl h1
        · exact .inr ⟨b', List.mem_cons_of_mem _ hb', hy, he⟩
      · rcases h2 with h2 | ⟨b', hb', hy, he⟩
        · exact .inl h2
        · exact .inr ⟨b', List.mem_cons_of_mem _ hb', hy, he⟩
      · intro b' hb' hy
        rcases List.mem_cons.mp hb' with rfl | hb'
        · exact absurd hy hb
        · exact h5 b' hb' hy

theorem foldl_rangeFold_hit (lo hi : ℚ) (f g : PathBbox → ℚ) :
    ∀ l : List PathBbox, (∃ b ∈ l, yHit lo hi b = true) →
      ∃ q, l.foldl (rangeFold lo hi f g) none = some q ∧
        (∃ b ∈ l, yHit lo hi b = true ∧ q.1 = f b) ∧
        (∃ b ∈ l, yHit lo hi b = true ∧ q.2 = g b) ∧
        (∀ b ∈ l, yHit lo hi b = true → q.1 ≤ f b ∧ g b ≤ q.2)
  | [], h => absurd h (by simp)
  | b :: l, h => by
    by_cases hb : yHit lo hi b = true
    · obtain ⟨q, hq, h1, h2, h3, h4, h5⟩ := foldl_rangeFold_some lo hi f g l (f b, g b)
      refine ⟨q, ?_, ?_, ?_, ?_⟩
      · rw [List.foldl_cons, show rangeFold lo hi f g none b = some (f b, g b) by
          simp [rangeFold, hb]]
        exact hq
      · rcases h1 with h1 | ⟨b', hb', hy, he⟩
        · exact ⟨b, List.mem_cons_self b l, hb, h1⟩
        · exact ⟨b', List.mem_cons_of_mem _ hb', hy, he⟩
      · rcases h2 with h2 | ⟨b', hb', hy, he⟩
        · exact ⟨b, List.mem_cons_self b l, hb, h2⟩
        · exact ⟨b', List.mem_cons_of_mem _ hb', hy, he⟩
      · intro b' hb' hy
        rcases List.mem_cons.mp hb' with rfl | hb'
        · exact ⟨h3, h4⟩
        · exact h5 b' hb' hy
    · obtain ⟨b0, hb0, hy0⟩ := h
      have hb0l : b0 ∈ l := by
        rcases List.mem_cons.mp hb0 with rfl | hb0l
        · exact absurd hy0 hb
        · exact hb0l
      obtain ⟨q, hq, h1, h2, h3⟩ := foldl_rangeFold_hit lo hi f g l ⟨b0, hb0l, hy0⟩
      refine ⟨q, ?_, ?_, ?_, ?_⟩
      · rw [List.foldl_cons,
          rangeFold_miss lo hi f g none b (Bool.eq_false_iff.mpr hb)]
        exact hq
      · obtain ⟨b', hb', hy, he⟩ := h1
        exact ⟨b', List.mem_cons_of_mem _ hb', hy, he⟩
      · obtain ⟨b', hb', hy, he⟩ := h2
        exact ⟨b', List.mem_cons_of_mem _ hb', hy, he⟩
      · intro b' hb' hy
        rcases List.mem_cons.mp hb' with rfl | hb'
        · exact absurd hy hb
        · exact h3 b' hb' hy

/-! ## Claims C2 and C3: x-range and y-range refinement -/

/-- Claim C2, counterexample.  With the single bounding box `bbFar` (top
100, bottom 110), target y-range `(0, 10)`, tolerance `1` and margin `0`,
no box intersects the tolerance-expanded y-range, and `refine_y_range`
returns `(0, 10)` — not `(0 + 1 - 0, 10 - 1 + 0) = (1, 9)` as the claim,
which reads `y_min`/`y_max` as the range given to the refinement step,
predicts. -/
theorem C2_counterexample :
    yHit (0 - 1) (10 + 1) bbFar = false ∧
    refine_y_range [bbFar] 0 10 1 0 = (0, 10) ∧
    refine_y_range [bbFar] 0 10 1 0 ≠ (0 + 1 - 0, 10 - 1 + 0) := by
  refine ⟨?_, ?_, ?_⟩ <;> with_unfolding_all decide

/-- Claim C2, amended: when no Geometry-Index bounding box intersects the
tolerance-expanded target y-range, `refine_y_range` returns
`(y_min - margin, y_max + margin)` in terms of the y-range given to the
refinement step — equivalently, the code's fallback expression
`(y_min' + tol - margin, y_max' - tol + margin)` where `(y_min', y_max')`
is the tolerance-expanded range, since the Rust function shadows
`y_min`/`y_max` with the expanded values before the fallback. -/
theorem C2_refine_y_fallback (bboxes : List PathBbox) (y_min y_max tol margin : ℚ)
    (h : ∀ b ∈ bboxes, yHit (y_min - tol) (y_max + tol) b = false) :
    refine_y_range bboxes y_min y_max tol margin = (y_min - margin, y_max + margin) := by
  have he := foldl_rangeFold_noHit (y_min - tol) (y_max + tol)
    PathBbox.top PathBbox.bottom bboxes h
  unfold refine_y_range
  simp only [he]
  exact Prod.ext (by ring) (by ring)

/-- Witness for `C2_refine_y_fallback` at the counterexample input. -/
theorem C2_refine_y_fallback_witness :
    refine_y_range [bbFar] 0 10 1 0 = (0 - 0, 10 + 0) :=
  C2_refine_y_fallback [bbFar] 0 10 1 0 (by with_unfolding_all decide)

/-- Claim C3, counterexample.  With the single non-intersecting bounding
box `bbFar`, margin `1`, typesetting x-range `(0, 10)`: the x-range kept is
the scaled typesetting range with no margin added, contradicting the
claim's "in both cases the configured x-margin is added to both ends". -/
theorem C3_counterexample :
    yHit (0 - 1) (10 + 1) bbFar = false ∧
    xRangeStep [bbFar] (0, 10) (0, 10) 1 1 =
      (0 * TEX2SVG_SCALING, 10 * TEX2SVG_SCALING) ∧
    xRangeStep [bbFar] (0, 10) (0, 10) 1 1 ≠
      (0 * TEX2SVG_SCALING - 1, 10 * TEX2SVG_SCALING + 1) := by
  have h1 : yHit ((0 : ℚ) - 1) ((10 : ℚ) + 1) bbFar = false := by
    with_unfolding_all decide
  have hall : ∀ b ∈ [bbFar], yHit ((0 : ℚ) - 1) ((10 : ℚ) + 1) b = false := by
    intro b hb
    rw [List.mem_singleton.mp hb]
    exact h1
  have he := foldl_rangeFold_noHit ((0 : ℚ) - 1) ((10 : ℚ) + 1)
    PathBbox.left PathBbox.right [bbFar] hall
  have h2 : xRangeStep [bbFar] (0, 10) (0, 10) 1 1 =
      (0 * TEX2SVG_SCALING, 10 * TEX2SVG_SCALING) := by
    unfold xRangeStep x_range_for_y_range
    simp only [he, Option.map_none', Option.getD_none]
  refine ⟨h1, h2, ?_⟩
  rw [h2]
  intro hc
  have := congrArg Prod.fst hc
  simp only [Prod.fst] at this
  linarith

/-- Claim C3, amended: the x-range is recomputed as the tight union of the
bounding boxes whose y-extent intersects the tolerance-expanded target
y-range (test `max(lo1,lo2) ≤ min(hi1,hi2)` after expanding by `tol`), with
the configured margin added to both ends; when no box intersects, the
typesetting-derived x-range is kept, scaled, with no margin added. -/
theorem C3_x_range_refinement (bboxes : List PathBbox) (x_range y_range : ℚ × ℚ)
    (tol margin : ℚ) :
    ((∀ b ∈ bboxes, yHit (y_range.1 - tol) (y_range.2 + tol) b = false) →
      xRangeStep bboxes x_range y_range tol margin =
        (x_range.1 * TEX2SVG_SCALING, x_range.2 * TEX2SVG_SCALING)) ∧
    ((∃ b ∈ bboxes, yHit (y_range.1 - tol) (y_range.2 + tol) b = true) →
      ∃ q, x_range_for_y_range bboxes y_range.1 y_range.2 tol margin = some q ∧
        xRangeStep bboxes x_range y_range tol margin = q ∧
        (∃ b ∈ bboxes, yHit (y_range.1 - tol) (y_range.2 + tol) b = true ∧
          q.1 = b.left - margin) ∧
        (∃ b ∈ bboxes, yHit (y_range.1 - tol) (y_range.2 + tol) b = true ∧
          q.2 = b.right + margin) ∧
        (∀ b ∈ bboxes, yHit (y_range.1 - tol) (y_range.2 + tol) b = true →
          q.1 ≤ b.left - margin ∧ b.right + margin ≤ q.2)) := by
  constructor
  · intro h
    have he := foldl_rangeFold_noHit (y_range.1 - tol) (y_range.2 + tol)
      PathBbox.left PathBbox.right bboxes h
    unfold xRangeStep x_range_for_y_range
    simp only [he, Option.map_none', Option.getD_none]
  · intro h
    obtain ⟨q, hq, h1, h2, h3⟩ :=
      foldl_rangeFold_hit (y_range.1 - tol) (y_range.2 + tol)
        PathBbox.left PathBbox.right bboxes h
    refine ⟨(q.1 - margin, q.2 + margin), ?_, ?_, ?_, ?_, ?_⟩
    · unfold x_range_for_y_range
      simp only [hq, Option.map_some']
    · unfold xRangeStep x_range_for_y_range
      simp only [hq, Option.map_some', Option.getD_some]
    · obtain ⟨b, hb, hy, he⟩ := h1
      exact ⟨b, hb, hy, by rw [he]⟩
    · obtain ⟨b, hb, hy, he⟩ := h2
      exact ⟨b, hb, hy, by rw [he]⟩
    · intro b hb hy
      obtain ⟨hl, hr⟩ := h3 b hb hy
      dsimp only
      exact ⟨by linarith, by linarith⟩

/-- Witness for `C3_x_range_refinement`: the no-intersection side at the
counterexample input, and the intersecting side at a box that intersects. -/
theorem C3_x_range_refinement_witness :
    xRangeStep [bbFar] (0, 10) (0, 10) 1 1 =
      ((0 : ℚ) * TEX2SVG_SCALING, (10 : ℚ) * TEX2SVG_SCALING) ∧
    ∃ q, x_range_for_y_range [bbFar] 100 110 1 1 = some q ∧
      xRangeStep [bbFar] (0, 10) (100, 110) 1 1 = q ∧
      (∃ b ∈ [bbFar], yHit ((100 : ℚ) - 1) ((110 : ℚ) + 1) b = true ∧
        q.1 = b.left - 1) ∧
      (∃ b ∈ [bbFar], yHit ((100 : ℚ) - 1) ((110 : ℚ) + 1) b = true ∧
        q.2 = b.right + 1) ∧
      (∀ b ∈ [bbFar], yHit ((100 : ℚ) - 1) ((110 : ℚ) + 1) b = true →
        q.1 ≤ b.left - 1 ∧ b.right + 1 ≤ q.2) :=
  ⟨(C3_x_range_refinement [bbFar] (0, 10) (0, 10) 1 1).1 (by with_unfolding_all decide),
   (C3_x_range_refinement [bbFar] (0, 10) (100, 110) 1 1).2
     ⟨bbFar, by with_unfolding_all decide⟩⟩

/-! ## Claim C4: the zero-area box filter -/

theorem scanBox_folded (st : ScanState) (b : TeXBox) :
    (scanBox st b).folded = st.folded ∨
      ((scanBox st b).folded = st.folded ++ [b] ∧ smallArea b = false) := by
  unfold scanBox
  by_cases h1 : smallArea b = true
  · left; simp [h1]
  · by_cases h2 : b ∈ st.seen
    · left; simp [h1, h2]
    · right
      refine ⟨by simp [h1, h2], Bool.eq_false_iff.mpr h1⟩

theorem foldl_scanBox_not_small :
    ∀ (boxes : List TeXBox) (st : ScanState),
      (∀ tb ∈ st.folded, smallArea tb = false) →
      ∀ tb ∈ (boxes.foldl scanBox st).folded, smallArea tb = false
  | [], _, h => h
  | b :: boxes, st, h => by
    rw [List.foldl_cons]
    refine foldl_scanBox_not_small boxes (scanBox st b) ?_
    rcases scanBox_folded st b with he | ⟨he, hb⟩
    · rw [he]; exact h
    · rw [he]
      intro tb htb
      rcases List.mem_append.mp htb with htb | htb
      · exact h tb htb
      · rw [List.mem_singleton.mp htb]; exact hb

theorem foldedBoxes_not_small (boxes seen0 : List TeXBox) :
    ∀ tb ∈ foldedBoxes boxes seen0, smallArea tb = false :=
  foldl_scanBox_not_small boxes { regions := [], seen := seen0, folded := [] }
    (by intro tb htb; exact absurd htb (List.not_mem_nil tb))

/-- Claim C4, counterexample.  The box `negBox` has negative width `-1` and
negative `height + depth = -1`; its area `(-1) * (-1) = 1` passes the
`1e-6` filter, so it is folded into a region even though its width is not
positive — the claim's "consequently every folded box has width>0 and
(height+depth)>0" does not follow from the area test the code performs. -/
theorem C4_counterexample :
    negBox ∈ foldedBoxes [negBox] [] ∧
    ¬ (0 < negBox.width ∧ 0 < negBox.height + negBox.depth) := by
  constructor <;> with_unfolding_all decide

/-- Claim C4, amended: a box with `width = 0` or `height + depth = 0` is
always discarded (its area is `0 ≤ 1e-6`), and every box actually folded
into a region has `width * (height + depth) > 1e-6`; in particular, when
its width and `height + depth` are nonnegative (as for genuine TeX boxes),
both are strictly positive. -/
theorem C4_box_filter (boxes seen0 : List TeXBox) :
    (∀ tb : TeXBox, tb.width = 0 ∨ tb.height + tb.depth = 0 →
      tb ∉ foldedBoxes boxes seen0) ∧
    (∀ tb ∈ foldedBoxes boxes seen0,
      1 / 1000000 < tb.width * (tb.height + tb.depth) ∧
      (0 ≤ tb.width → 0 ≤ tb.height + tb.depth →
        0 < tb.width ∧ 0 < tb.height + tb.depth)) := by
  have key : ∀ tb ∈ foldedBoxes boxes seen0,
      1 / 1000000 < tb.width * (tb.height + tb.depth) := by
    intro tb htb
    have hs := foldedBoxes_not_small boxes seen0 tb htb
    have : ¬ (tb.width * (tb.height + tb.depth) ≤ 1 / 1000000) := by
      intro hle
      have hsm : smallArea tb = true := by
        simp only [smallArea, decide_eq_true_eq]
        exact hle
      rw [hsm] at hs
      exact Bool.true_eq_false.mp hs
    linarith [lt_of_not_le this]
  constructor
  · intro tb hzero htb
    have := key tb htb
    rcases hzero with h0 | h0 <;> rw [h0] at this <;> simp at this <;> linarith
  · intro tb htb
    refine ⟨key tb htb, ?_⟩
    intro hw hhd
    have hpos : 0 < tb.width * (tb.height + tb.depth) := by
      have := key tb htb; linarith
    constructor
    · rcases lt_or_eq_of_le hw with h | h
      · exact h
      · rw [← h] at hpos; simp at hpos
    · rcases lt_or_eq_of_le hhd with h | h
      · exact h
      · rw [← h] at hpos; simp at hpos

/-- Witness for `C4_box_filter`: the scenario box (width 50, height 10,
depth 2) is folded and satisfies the positivity consequence. -/
theorem C4_box_filter_witness :
    1 / 1000000 < scBox.width * (scBox.height + scBox.depth) ∧
    (0 ≤ scBox.width → 0 ≤ scBox.height + scBox.depth →
      0 < scBox.width ∧ 0 < scBox.height + scBox.depth) :=
  (C4_box_filter [scBox] []).2 scBox (by with_unfolding_all decide)

/-! ## Lemmas about region accumulation (claim C5) -/

theorem lookupPage_eq_none :
    ∀ (rs : List (ℕ × Region)) (pg : ℕ), (∀ pr ∈ rs, pr.1 ≠ pg) →
      lookupPage rs pg = none
  | [], _, _ => rfl
  | (pg', r) :: rest, pg, h => by
    unfold lookupPage
    rw [if_neg (h (pg', r) (List.mem_cons_self _ _))]
    exact lookupPage_eq_none rest pg (fun pr hpr => h pr (List.mem_cons_of_mem _ hpr))

theorem lookupPage_of_mem :
    ∀ (rs : List (ℕ × Region)) (pg : ℕ) (r : Region),
      List.Pairwise (fun a b : ℕ × Region => a.1 < b.1) rs →
      (pg, r) ∈ rs → lookupPage rs pg = some r
  | [], _, _, _, hm => absurd hm (List.not_mem_nil _)
  | (pg', r') :: rest, pg, r, hs, hm => by
    rcases List.mem_cons.mp hm with he | hm'
    · injection he with he1 he2
      subst he1
      subst he2
      unfold lookupPage
      rw [if_pos rfl]
    · have hne : pg' ≠ pg := by
        intro hcontra
        have := (List.pairwise_cons.mp hs).1 (pg, r) hm'
        simp only [hcontra] at this
        exact lt_irrefl pg this
      unfold lookupPage
      rw [if_neg hne]
      exact lookupPage_of_mem rest pg r (List.pairwise_cons.mp hs).2 hm'

theorem updateRegions_key_mem :
    ∀ (rs : List (ℕ × Region)) (tb : TeXBox) (pr : ℕ × Region),
      pr ∈ updateRegions rs tb → pr.1 = tb.page ∨ pr.1 ∈ rs.map Prod.fst
  | [], tb, pr, h => by
    unfold updateRegions at h
    rw [List.mem_singleton.mp h]
    exact .inl rfl
  | (pg', r') :: rest, tb, pr, h => by
    unfold updateRegions at h
    by_cases h1 : tb.page = pg'
    · rw [if_pos h1] at h
      rcases List.mem_cons.mp h with he | hm
      · rw [he]; exact .inl h1.symm
      · exact .inr (by
          simp only [List.map_cons]
          exact List.mem_cons_of_mem _ (List.mem_map_of_mem Prod.fst hm))
    · rw [if_neg h1] at h
      by_cases h2 : tb.page < pg'
      · rw [if_pos h2] at h
        rcases List.mem_cons.mp h with he | hm
        · rw [he]; exact .inl rfl
        · exact .inr (by
            simp only [List.map_cons]
            rcases List.mem_cons.mp hm with he' | hm'
            · rw [he']; exact List.mem_cons_self _ _
            · exact List.mem_cons_of_mem _ (List.mem_map_of_mem Prod.fst hm'))
      · rw [if_neg h2] at h
        rcases List.mem_cons.mp h with he | hm
        · rw [he]
          exact .inr (by simp only [List.map_cons]; exact List.mem_cons_self _ _)
        · rcases updateRegions_key_mem rest tb pr hm with hc | hc
          · exact .inl hc
          · exact .inr (by simp only [List.map_cons]; exact List.mem_cons_of_mem _ hc)

theorem updateRegions_sorted :
    ∀ (rs : List (ℕ × Region)) (tb : TeXBox),
      List.Pairwise (fun a b : ℕ × Region => a.1 < b.1) rs →
      List.Pairwise (fun a b : ℕ × Region => a.1 < b.1) (updateRegions rs tb)
  | [], tb, _ => List.pairwise_singleton _ _
  | (pg', r') :: rest, tb, hs => by
    obtain ⟨hhead, htail⟩ := List.pairwise_cons.mp hs
    unfold updateRegions
    by_cases h1 : tb.page = pg'
    · rw [if_pos h1]
      exact List.pairwise_cons.mpr ⟨hhead, htail⟩
    · rw [if_neg h1]
      by_cases h2 : tb.page < pg'
      · rw [if_pos h2]
        refine List.pairwise_cons.mpr ⟨?_, hs⟩
        intro pr hpr
        rcases List.mem_cons.mp hpr with he | hm
        · rw [he]; exact h2
        · exact lt_trans h2 (hhead pr hm)
      · rw [if_neg h2]
        have hgt : pg' < tb.page := by omega
        refine List.pairwise_cons.mpr ⟨?_, updateRegions_sorted rest tb htail⟩
        intro pr hpr
        rcases updateRegions_key_mem rest tb pr hpr with hc | hc
        · rw [hc]; exact hgt
        · obtain ⟨pr', hpr', he⟩ := List.mem_map.mp hc
          rw [← he]
          exact hhead pr' hpr'

theorem lookupPage_cons (pg' : ℕ) (r' : Region) (rest : List (ℕ × Region))
    (pg : ℕ) :
    lookupPage ((pg', r') :: rest) pg = if pg' = pg then some r' else lookupPage rest pg :=
  rfl

theorem lookupPage_updateRegions :
    ∀ (rs : List (ℕ × Region)) (tb : TeXBox) (pg : ℕ),
      List.Pairwise (fun a b : ℕ × Region => a.1 < b.1) rs →
      lookupPage (updateRegions rs tb) pg =
        if tb.page = pg then regionFold (lookupPage rs pg) tb
        else lookupPage rs pg
  | [], tb, pg, _ => by
    show lookupPage [(tb.page, newRegion tb)] pg = _
    rw [lookupPage_cons]
    by_cases h1 : tb.page = pg
    · rw [if_pos h1, if_pos h1]
      rfl
    · rw [if_neg h1, if_neg h1]
  | (pg', r') :: rest, tb, pg, hs => by
    obtain ⟨hhead, htail⟩ := List.pairwise_cons.mp hs
    unfold updateRegions
    by_cases h1 : tb.page = pg'
    · rw [if_pos h1]
      by_cases h2 : pg' = pg
      · have h4 : tb.page = pg := h1.trans h2
        rw [lookupPage_cons, lookupPage_cons, if_pos h2, if_pos h2, if_pos h4]
        rfl
      · have h4 : ¬ tb.page = pg := fun hc => h2 (h1.symm.trans hc)
        rw [lookupPage_cons, lookupPage_cons, if_neg h2, if_neg h2]
        rw [if_neg h4]
    · rw [if_neg h1]
      by_cases h2 : tb.page < pg'
      · rw [if_pos h2]
        by_cases h3 : tb.page = pg
        · have hnone : lookupPage ((pg', r') :: rest) pg = none := by
            refine lookupPage_eq_none _ pg ?_
            intro pr hpr
            rcases List.mem_cons.mp hpr with he | hm
            · rw [he]
              show pg' ≠ pg
              omega
            · have := hhead pr hm
              show pr.1 ≠ pg
              omega
          rw [lookupPage_cons, if_pos h3, hnone, if_pos h3]
          rfl
        · have hne : ¬ tb.page = pg := h3
          rw [lookupPage_cons, if_neg h3, if_neg hne]
      · have hgt : pg' < tb.page := by omega
        rw [if_neg h2]
        rw [lookupPage_cons, lookupPage_cons]
        by_cases h3 : pg' = pg
        · have h4 : ¬ tb.page = pg := by omega
          rw [if_pos h3, if_pos h3, if_neg h4]
        · rw [if_neg h3, if_neg h3]
          rw [lookupPage_updateRegions rest tb pg htail]

theorem scan_invariant :
    ∀ (boxes : List TeXBox) (st : ScanState),
      List.Pairwise (fun a b : ℕ × Region => a.1 < b.1) st.regions →
      (∀ pg, lookupPage st.regions pg =
        List.foldl regionFold none (st.folded.filter (fun b => b.page = pg))) →
      List.Pairwise (fun a b : ℕ × Region => a.1 < b.1)
          (boxes.foldl scanBox st).regions ∧
        ∀ pg, lookupPage (boxes.foldl scanBox st).regions pg =
          List.foldl regionFold none
            ((boxes.foldl scanBox st).folded.filter (fun b => b.page = pg))
  | [], st, hs, hl => ⟨hs, hl⟩
  | b :: boxes, st, hs, hl => by
    rw [List.foldl_cons]
    by_cases h1 : smallArea b = true
    · have he : scanBox st b = st := by unfold scanBox; rw [if_pos h1]
      rw [he]
      exact scan_invariant boxes st hs hl
    · by_cases h2 : b ∈ st.seen
      · have he : scanBox st b = st := by
          unfold scanBox
          rw [if_neg h1, if_pos h2]
        rw [he]
        exact scan_invariant boxes st hs hl
      · have he : scanBox st b =
            { regions := updateRegions st.regions b
              seen := st.seen ++ [b]
              folded := st.folded ++ [b] } := by
          unfold scanBox
          rw [if_neg h1, if_neg h2]
        rw [he]
        refine scan_invariant boxes _ (updateRegions_sorted st.regions b hs) ?_
        intro pg
        show lookupPage (updateRegions st.regions b) pg = _
        rw [lookupPage_updateRegions st.regions b pg hs]
        by_cases h3 : b.page = pg
        · rw [if_pos h3, hl pg, List.filter_append, List.foldl_append]
          have : List.filter (fun b' => decide (b'.page = pg)) [b] = [b] := by
            simp [h3]
          rw [this]
          rfl
        · rw [if_neg h3, hl pg, List.filter_append]
          have : List.filter (fun b' => decide (b'.page = pg)) [b] = [] := by
            simp [h3]
          rw [this, List.append_nil]

theorem foldl_regionFold_some :
    ∀ (l : List TeXBox) (r0 : Region),
      ∃ r, List.foldl regionFold (some r0) l = some r ∧
        (∀ b ∈ l, regionCovers r b) ∧
        (r.x_range.1 ≤ r0.x_range.1 ∧ r0.x_range.2 ≤ r.x_range.2 ∧
          r.y_range.1 ≤ r0.y_range.1 ∧ r0.y_range.2 ≤ r.y_range.2 ∧
          r0.baseline_width ≤ r.baseline_width) ∧
        ((r.x_range.1 = r0.x_range.1 ∨ ∃ b ∈ l, r.x_range.1 = b.h) ∧
         (r.x_range.2 = r0.x_range.2 ∨ ∃ b ∈ l, r.x_range.2 = b.h + b.width) ∧
         (r.y_range.1 = r0.y_range.1 ∨ ∃ b ∈ l, r.y_range.1 = b.v - b.height) ∧
         (r.y_range.2 = r0.y_range.2 ∨ ∃ b ∈ l, r.y_range.2 = b.v + b.depth) ∧
         ((r.baseline = r0.baseline ∧ r.baseline_width = r0.baseline_width) ∨
           ∃ b ∈ l, r.baseline = b.v ∧ r.baseline_width = b.width))
  | [], r0 =>
    ⟨r0, rfl, by simp, ⟨le_refl _, le_refl _, le_refl _, le_refl _, le_refl _⟩,
      .inl rfl, .inl rfl, .inl rfl, .inl rfl, .inl ⟨rfl, rfl⟩⟩
  | b :: l, r0 => by
    obtain ⟨r, hr, hcov, hdom, hat1, hat2, hat3, hat4, hat5⟩ :=
      foldl_regionFold_some l (foldBoxIntoRegion r0 b)
    obtain ⟨hd1, hd2, hd3, hd4, hd5⟩ := hdom
    have hx1 : (foldBoxIntoRegion r0 b).x_range.1 = min r0.x_range.1 b.h := rfl
    have hx2 : (foldBoxIntoRegion r0 b).x_range.2 = max r0.x_range.2 (b.h + b.width) := rfl
    have hy1 : (foldBoxIntoRegion r0 b).y_range.1 = min r0.y_range.1 (b.v - b.height) := rfl
    have hy2 : (foldBoxIntoRegion r0 b).y_range.2 = max r0.y_range.2 (b.v + b.depth) := rfl
    have hbw : (foldBoxIntoRegion r0 b).baseline_width =
        if r0.baseline_width < b.width then b.width else r0.baseline_width := rfl
    have hbl : (foldBoxIntoRegion r0 b).baseline =
        if r0.baseline_width < b.width then b.v else r0.baseline := rfl
    have hwle : b.width ≤ (foldBoxIntoRegion r0 b).baseline_width := by
      rw [hbw]
      by_cases hc : r0.baseline_width < b.width
      · rw [if_pos hc]
      · rw [if_neg hc]
        exact le_of_not_lt hc
    have hw0 : r0.baseline_width ≤ (foldBoxIntoRegion r0 b).baseline_width := by
      rw [hbw]
      by_cases hc : r0.baseline_width < b.width
      · rw [if_pos hc]; exact le_of_lt hc
      · rw [if_neg hc]
    refine ⟨r, ?_, ?_, ?_, ?_, ?_, ?_, ?_, ?_⟩
    · rw [List.foldl_cons]
      exact hr
    · intro b' hb'
      rcases List.mem_cons.mp hb' with rfl | hb'
      · refine ⟨?_, ?_, ?_, ?_, ?_⟩
        · exact le_trans hd1 (by rw [hx1]; exact min_le_right _ _)
        · exact le_trans (by rw [hx2]; exact le_max_right _ _) hd2
        · exact le_trans hd3 (by rw [hy1]; exact min_le_right _ _)
        · exact le_trans (by rw [hy2]; exact le_max_right _ _) hd4
        · exact le_trans hwle hd5
      · exact hcov b' hb'
    · refine ⟨?_, ?_, ?_, ?_, ?_⟩
      · exact le_trans hd1 (by rw [hx1]; exact min_le_left _ _)
      · exact le_trans (by rw [hx2]; exact le_max_left _ _) hd2
      · exact le_trans hd3 (by rw [hy1]; exact min_le_left _ _)
      · exact le_trans (by rw [hy2]; exact le_max_left _ _) hd4
      · exact le_trans hw0 hd5
    · rcases hat1 with he | ⟨b', hb', he⟩
      · rw [hx1] at he
        rcases le_total r0.x_range.1 b.h with hle | hle
        · exact .inl (by rw [he]; exact min_eq_left hle)
        · exact .inr ⟨b, List.mem_cons_self _ _, by rw [he]; exact min_eq_right hle⟩
      · exact .inr ⟨b', List.mem_cons_of_mem _ hb', he⟩
    · rcases hat2 with he | ⟨b', hb', he⟩
      · rw [hx2] at he
        rcases le_total (b.h + b.width) r0.x_range.2 with hle | hle
        · exact .inl (by rw [he]; exact max_eq_left hle)
        · exact .inr ⟨b, List.mem_cons_self _ _, by rw [he]; exact max_eq_right hle⟩
      · exact .inr ⟨b', List.mem_cons_of_mem _ hb', he⟩
    · rcases hat3 with he | ⟨b', hb', he⟩
      · rw [hy1] at he
        rcases le_total r0.y_range.1 (b.v - b.height) with hle | hle
        · exact .inl (by rw [he]; exact min_eq_left hle)
        · exact .inr ⟨b, List.mem_cons_self _ _, by rw [he]; exact min_eq_right hle⟩
      · exact .inr ⟨b', List.mem_cons_of_mem _ hb', he⟩
    · rcases hat4 with he | ⟨b', hb', he⟩
      · rw [hy2] at he
        rcases le_total (b.v + b.depth) r0.y_range.2 with hle | hle
        · exact .inl (by rw [he]; exact max_eq_left hle)
        · exact .inr ⟨b, List.mem_cons_self _ _, by rw [he]; exact max_eq_right hle⟩
      · exact .inr ⟨b', List.mem_cons_of_mem _ hb', he⟩
    · rcases hat5 with ⟨he1, he2⟩ | ⟨b', hb', he⟩
      · by_cases hc : r0.baseline_width < b.width
        · refine .inr ⟨b, List.mem_cons_self _ _, ?_, ?_⟩
          · rw [he1, hbl, if_pos hc]
          · rw [he2, hbw, if_pos hc]
        · refine .inl ⟨?_, ?_⟩
          · rw [he1, hbl, if_neg hc]
          · rw [he2, hbw, if_neg hc]
      · exact .inr ⟨b', List.mem_cons_of_mem _ hb', he⟩

theorem foldl_regionFold_char (b0 : TeXBox) (l : List TeXBox) :
    ∃ r, List.foldl regionFold none (b0 :: l) = some r ∧
      (∀ b ∈ b0 :: l, regionCovers r b) ∧ regionTight r (b0 :: l) := by
  obtain ⟨r, hr, hcov, hdom, hat1, hat2, hat3, hat4, hat5⟩ :=
    foldl_regionFold_some l (newRegion b0)
  obtain ⟨hd1, hd2, hd3, hd4, hd5⟩ := hdom
  refine ⟨r, ?_, ?_, ?_, ?_, ?_, ?_, ?_⟩
  · rw [List.foldl_cons]
    exact hr
  · intro b hb
    rcases List.mem_cons.mp hb with rfl | hb
    · exact ⟨hd1, hd2, hd3, hd4, hd5⟩
    · exact hcov b hb
  · rcases hat1 with he | ⟨b, hb, he⟩
    · exact ⟨b0, List.mem_cons_self _ _, he⟩
    · exact ⟨b, List.mem_cons_of_mem _ hb, he⟩
  · rcases hat2 with he | ⟨b, hb, he⟩
    · exact ⟨b0, List.mem_cons_self _ _, he⟩
    · exact ⟨b, List.mem_cons_of_mem _ hb, he⟩
  · rcases hat3 with he | ⟨b, hb, he⟩
    · exact ⟨b0, List.mem_cons_self _ _, he⟩
    · exact ⟨b, List.mem_cons_of_mem _ hb, he⟩
  · rcases hat4 with he | ⟨b, hb, he⟩
    · exact ⟨b0, List.mem_cons_self _ _, he⟩
    · exact ⟨b, List.mem_cons_of_mem _ hb, he⟩
  · rcases hat5 with ⟨he1, he2⟩ | ⟨b, hb, he⟩
    · exact ⟨b0, List.mem_cons_self _ _, he1, he2⟩
    · exact ⟨b, List.mem_cons_of_mem _ hb, he⟩

/-- Claim C5: folding boxes into a page's Region extends the x-range and
y-range to the union of the folded boxes' extents (the region covers every
folded box of that page and each bound is attained by one of them), and the
baseline is the `v` of a folded box of maximal width; in the concrete
scenario of one box `(h=100, v=200, width=50, height=10, depth=2, page=1)`
the Region is x-range `[100,150]`, y-range `[190,202]`, baseline `200`,
and the InlineMath output depth before margin and scaling is
`y_max - baseline = 2` while DisplayMath/RawBlock always use `0`. -/
theorem C5_region_union :
    (∀ (boxes seen0 : List TeXBox) (pg : ℕ) (r : Region),
      (pg, r) ∈ (accumulateBoxes boxes seen0).regions →
      (∀ b ∈ (foldedBoxes boxes seen0).filter (fun b => b.page = pg),
        regionCovers r b) ∧
      regionTight r ((foldedBoxes boxes seen0).filter (fun b => b.page = pg))) ∧
    (accumulateBoxes [scBox] []).regions = [(1, scRegion)] ∧
    fragmentDepth .inlineMath scRegion.y_range scRegion.baseline = 2 ∧
    fragmentDepth .displayMath scRegion.y_range scRegion.baseline = 0 ∧
    fragmentDepth .rawBlock scRegion.y_range scRegion.baseline = 0 := by
  refine ⟨?_, ?_, ?_, ?_, ?_⟩
  · intro boxes seen0 pg r hm
    unfold accumulateBoxes at hm
    unfold foldedBoxes accumulateBoxes
    obtain ⟨hsorted, hlk⟩ := scan_invariant boxes
      { regions := [], seen := seen0, folded := [] }
      (List.Pairwise.nil) (fun _ => rfl)
    have hsome := lookupPage_of_mem _ pg r hsorted hm
    rw [hlk pg] at hsome
    rcases hfl : (List.foldl scanBox { regions := [], seen := seen0, folded := [] }
        boxes).folded.filter (fun b => decide (b.page = pg)) with _ | ⟨b0, l⟩
    · rw [hfl] at hsome
      exact absurd hsome (by simp)
    · rw [hfl] at hsome
      obtain ⟨r', hr', hcov, htight⟩ := foldl_regionFold_char b0 l
      rw [hr'] at hsome
      have hrr : r' = r := Option.some.inj hsome
      rw [hfl, ← hrr]
      exact ⟨hcov, htight⟩
  · with_unfolding_all decide
  · with_unfolding_all decide
  · with_unfolding_all decide
  · with_unfolding_all decide

/-- Witness for `C5_region_union`: the general union property applied to
the scenario input. -/
theorem C5_region_union_witness :
    regionTight scRegion ((foldedBoxes [scBox] []).filter (fun b => b.page = 1)) :=
  ((C5_region_union).1 [scBox] [] 1 scRegion (by with_unfolding_all decide)).2

/-! ## Claim C6: resolution failure conditions -/

/-- Claim C6: region resolution fails if and only if either no page
accumulated any box (empty region map), or the fragment is InlineMath and
its boxes landed on more than one page; on success one image descriptor per
accumulated page is emitted (in particular never an empty image list, and
exactly one image for InlineMath). -/
theorem C6_resolution_failure (cfg : RenderConfig) (bboxesOf : ℕ → List PathBbox)
    (pageTop : ℕ → ℚ) (ty : FragmentType) (regions : List (ℕ × Region)) :
    ((∃ e, resolveFragment cfg bboxesOf pageTop ty regions = .error e) ↔
      (regions = [] ∨ (ty = .inlineMath ∧ 1 < regions.length))) ∧
    (∀ imgs, resolveFragment cfg bboxesOf pageTop ty regions = .ok imgs →
      imgs.length = regions.length) := by
  constructor
  · constructor
    · rintro ⟨e, he⟩
      by_cases h1 : regions.isEmpty
      · exact .inl (List.isEmpty_iff.mp h1)
      · by_cases h2 : ty = .inlineMath ∧ 1 < regions.length
        · exact .inr h2
        · exfalso
          unfold resolveFragment at he
          rw [if_neg h1, if_neg h2] at he
          exact Except.noConfusion he
    · intro h
      unfold resolveFragment
      rcases h with h | h
      · rw [if_pos (by rw [h]; rfl)]
        exact ⟨_, rfl⟩
      · by_cases h1 : regions.isEmpty
        · rw [if_pos h1]
          exact ⟨_, rfl⟩
        · rw [if_neg h1, if_pos h]
          exact ⟨_, rfl⟩
  · intro imgs h
    unfold resolveFragment at h
    by_cases h1 : regions.isEmpty
    · rw [if_pos h1] at h
      exact absurd h Except.noConfusion
    · rw [if_neg h1] at h
      by_cases h2 : ty = .inlineMath ∧ 1 < regions.length
      · rw [if_pos h2] at h
        exact absurd h Except.noConfusion
      · rw [if_neg h2] at h
        have := Except.ok.inj h
        rw [← this, List.length_map]

/-- Witness for `C6_resolution_failure`: an empty region map makes the
resolution fail, and a one-page InlineMath fragment succeeds with exactly
one image. -/
theorem C6_resolution_failure_witness :
    (∃ e, resolveFragment ⟨0, 1, 1, 0⟩ (fun _ => []) (fun _ => 0) .inlineMath [] =
      .error e) ∧
    (∀ imgs, resolveFragment ⟨0, 1, 1, 0⟩ (fun _ => []) (fun _ => 0) .inlineMath
      [(1, scRegion)] = .ok imgs → imgs.length = 1) :=
  ⟨(C6_resolution_failure ⟨0, 1, 1, 0⟩ (fun _ => []) (fun _ => 0) .inlineMath []).1.mpr
    (.inl rfl),
   fun imgs h =>
    (C6_resolution_failure ⟨0, 1, 1, 0⟩ (fun _ => []) (fun _ => 0) .inlineMath
      [(1, scRegion)]).2 imgs h⟩

/-! ## Claim C9: fingerprint partiality -/

theorem fold_fpStep_shift_none (tr : Transform) :
    ∀ (data : List PathSegment) (el : List FPElem),
      (∀ s ∈ data, s = PathSegment.closePath) →
      (data.foldl (fpStep tr) (none, el)).1 = none
  | [], _, _ => rfl
  | s :: data, el, h => by
    rw [h s (List.mem_cons_self _ _), List.foldl_cons]
    exact fold_fpStep_shift_none tr data (el ++ [.cmd .closePath])
      (fun s' hs' => h s' (List.mem_cons_of_mem _ hs'))

theorem foldlM_optStep_none (eps : ℚ) (p : SPath) (post : List SPath)
    (hp : ∀ st : OptState, optStep eps st p = none) :
    ∀ (pre : List SPath) (st : OptState),
      List.foldlM (optStep eps) st (pre ++ p :: post) = none
  | [], st => by
    rw [List.nil_append]
    show ((optStep eps st p).bind fun st' =>
      List.foldlM (optStep eps) st' post) = none
    rw [hp st]
    rfl
  | q :: pre, st => by
    rw [List.cons_append]
    show ((optStep eps st q).bind fun st' =>
      List.foldlM (optStep eps) st' (pre ++ p :: post)) = none
    rcases hq : optStep eps st q with _ | st'
    · rfl
    · show List.foldlM (optStep eps) st' (pre ++ p :: post) = none
      exact foldlM_optStep_none eps p post hp pre st'

/-- Claim C9: fingerprint construction is partial — on a path whose segment
list contains no `MoveTo`/`LineTo`/`CurveTo` (here: every segment is
`ClosePath`, which also covers the empty path), the shift origin is never
initialised, `PathFingerprint::new` panics on its `unwrap` (modelled by
`none`), and the whole optimizer pass over any document containing such a
path is not total (`none`), wherever the path occurs. -/
theorem C9_fingerprint_partiality (pre post : List SPath) (eps : ℚ) (p : SPath)
    (h : ∀ s ∈ p.data, s = PathSegment.closePath) :
    PathFingerprint.new p = none ∧ optimizePass (pre ++ p :: post) eps = none := by
  have hnew : PathFingerprint.new p = none := by
    have hsh := fold_fpStep_shift_none p.transform p.data [] h
    unfold PathFingerprint.new
    simp only [hsh, Option.map_none']
  refine ⟨hnew, ?_⟩
  have hstep : ∀ st : OptState, optStep eps st p = none := by
    intro st
    unfold optStep
    rw [hnew]
  unfold optimizePass
  rw [foldlM_optStep_none eps p post hstep pre _]
  rfl

/-- Witness for `C9_fingerprint_partiality`: the concrete `ClosePath`-only
path. -/
theorem C9_fingerprint_partiality_witness :
    PathFingerprint.new pathClose = none ∧ optimizePass [pathClose] 1 = none :=
  C9_fingerprint_partiality [] [] 1 pathClose (by
    intro s hs
    rw [List.mem_singleton.mp hs])

/-! ## Claim C10: inline fragment deduplication -/

theorem addInlineRef_cons (src : String) (node : ℕ) (f : Fragment)
    (rest : List Fragment) :
    addInlineRef src node (f :: rest) =
      if f.ty = FragmentType.inlineMath ∧ f.src = src then
        { ty := f.ty, src := f.src, refs := f.refs ++ [node] } :: rest
      else f :: addInlineRef src node rest := rfl

theorem addInlineRef_match :
    ∀ (fs : List Fragment) (src : String) (node : ℕ),
      (∃ f ∈ fs, f.ty = .inlineMath ∧ f.src = src) →
      (addInlineRef src node fs).length = fs.length ∧
      ∃ (i : ℕ) (f : Fragment), fs[i]? = some f ∧ f.ty = .inlineMath ∧ f.src = src ∧
        (addInlineRef src node fs)[i]? =
          some { ty := f.ty, src := f.src, refs := f.refs ++ [node] } ∧
        ∀ j, j ≠ i → (addInlineRef src node fs)[j]? = fs[j]?
  | [], _, _, h => absurd h (by simp)
  | f :: rest, src, node, h => by
    by_cases hf : f.ty = .inlineMath ∧ f.src = src
    · have he : addInlineRef src node (f :: rest) =
          { ty := f.ty, src := f.src, refs := f.refs ++ [node] } :: rest := by
        rw [addInlineRef_cons, if_pos hf]
      refine ⟨by rw [he]; simp, 0, f, List.getElem?_cons_zero, hf.1, hf.2, ?_, ?_⟩
      · rw [he]
        exact List.getElem?_cons_zero
      · intro j hj
        rcases j with _ | k
        · exact absurd rfl hj
        · rw [he, List.getElem?_cons_succ, List.getElem?_cons_succ]
    · have he : addInlineRef src node (f :: rest) =
          f :: addInlineRef src node rest := by
        rw [addInlineRef_cons, if_neg hf]
      have hrest : ∃ g ∈ rest, g.ty = .inlineMath ∧ g.src = src := by
        obtain ⟨g, hg, hgp⟩ := h
        rcases List.mem_cons.mp hg with rfl | hg'
        · exact absurd hgp hf
        · exact ⟨g, hg', hgp⟩
      obtain ⟨hlen, i, g, hgi, hgt, hgs, hupd, hother⟩ :=
        addInlineRef_match rest src node hrest
      refine ⟨by rw [he]; simpa using hlen, i + 1, g, ?_, hgt, hgs, ?_, ?_⟩
      · rw [List.getElem?_cons_succ]
        exact hgi
      · rw [he, List.getElem?_cons_succ]
        exact hupd
      · intro j hj
        rcases j with _ | k
        · rw [he, List.getElem?_cons_zero, List.getElem?_cons_zero]
        · rw [he, List.getElem?_cons_succ, List.getElem?_cons_succ]
          exact hother k (fun hc => hj (by rw [hc]))

/-- Claim C10: an InlineMath occurrence whose trimmed source equals that of
an already-collected InlineMath fragment creates no new fragment; its node
reference is appended to that (first matching) fragment's reference list,
all other fragments being untouched — so all occurrences of the same
trimmed inline source are typeset once and their nodes share one
replacement. -/
theorem C10_inline_dedup (fs : List Fragment) (src : String) (node : ℕ)
    (h : ∃ f ∈ fs, f.ty = .inlineMath ∧ f.src = strTrim src) :
    (add_fragment fs .inlineMath src node).length = fs.length ∧
    ∃ (i : ℕ) (f : Fragment), fs[i]? = some f ∧ f.ty = .inlineMath ∧
      f.src = strTrim src ∧
      (add_fragment fs .inlineMath src node)[i]? =
        some { ty := f.ty, src := f.src, refs := f.refs ++ [node] } ∧
      ∀ j, j ≠ i → (add_fragment fs .inlineMath src node)[j]? = fs[j]? :=
  addInlineRef_match fs (strTrim src) node h

/-- Witness for `C10_inline_dedup`: adding a second occurrence of
`" x+1 "` (trimming to `"x+1"`) to a list containing the `"x+1"` fragment
leaves the fragment count at one. -/
theorem C10_inline_dedup_witness :
    (add_fragment [fragX1] .inlineMath " x+1 " 1).length = 1 :=
  (C10_inline_dedup [fragX1] " x+1 " 1
    ⟨fragX1, List.mem_singleton_self _, rfl, by with_unfolding_all decide⟩).1

/-! ## Claims C7 and C8: the rewrite pass -/

theorem rewriteBody_fst_get (paths : List SPath)
    (states : List (PState × PathFingerprint)) (j : ℕ) (hj : j < states.length) :
    (rewriteBody paths states).1[j]? = some (rewriteItem paths states j) := by
  show ((List.range states.length).map (rewriteItem paths states))[j]? = _
  rw [List.getElem?_map, List.getElem?_range hj]
  rfl

theorem rewriteItem_referring (paths : List SPath)
    (states : List (PState × PathFingerprint)) (j r : ℕ) (fp : PathFingerprint)
    (hj : states[j]? = some (.referring r, fp)) :
    rewriteItem paths states j =
      .useItem (fmt3 (fp.shift.1 - (((states[r]?).map Prod.snd).getD fp).shift.1))
        (fmt3 (fp.shift.2 - (((states[r]?).map Prod.snd).getD fp).shift.2)) r := by
  unfold rewriteItem
  rcases hpk : paths[j]? with _ | p0 <;> simp only [hj, hpk]

theorem rewriteItem_pathItem_inv (paths : List SPath)
    (states : List (PState × PathFingerprint)) (k : ℕ) (q : SPath)
    (h : rewriteItem paths states k = .pathItem q) :
    ∃ fp', states[k]? = some (.standalone, fp') ∧ paths[k]? = some q := by
  unfold rewriteItem at h
  rcases hsk : states[k]? with _ | ⟨st1, fp'⟩
  · rcases hpk : paths[k]? with _ | p0 <;> rw [hsk, hpk] at h <;>
      exact OutItem.noConfusion h
  · rcases st1 with _ | _ | r'
    · rcases hpk : paths[k]? with _ | p0 <;> rw [hsk, hpk] at h
      · exact OutItem.noConfusion h
      · exact ⟨fp', rfl, by rw [OutItem.pathItem.inj h]⟩
    · rcases hpk : paths[k]? with _ | p0 <;> rw [hsk, hpk] at h <;>
        exact OutItem.noConfusion h
    · rcases hpk : paths[k]? with _ | p0 <;> rw [hsk, hpk] at h <;>
        exact OutItem.noConfusion h

theorem defsPred_referred_inv (states : List (PState × PathFingerprint)) (k : ℕ)
    (h : (match states[k]? with
      | some (PState.referred, _) => true
      | _ => false) = true) :
    ∃ fp', states[k]? = some (.referred, fp') := by
  rcases hsk : states[k]? with _ | ⟨st1, fp'⟩
  · rw [hsk] at h
    exact absurd h Bool.noConfusion
  · rcases st1 with _ | _ | r' <;> rw [hsk] at h
    · exact absurd h Bool.noConfusion
    · exact ⟨fp', rfl⟩
    · exact absurd h Bool.noConfusion

/-- Claim C7: every path classified `Referring(r)` is rewritten into a
`use` reference whose translation is `fp.shift - target.shift` formatted to
three decimals, where `fp` is its fingerprint and `target` the fingerprint
stored for path `r`; in the concrete scenario of the two paths
`M0,0 L10,10` and `M5,5 L15,15` with identical fill, the optimizer emits
one definition (path 0) and one reference with translation
`("5.000", "5.000")`. -/
theorem C7_referring_translation :
    (∀ (paths : List SPath) (eps : ℚ) (states : List (PState × PathFingerprint))
       (j r : ℕ) (fp fpR : PathFingerprint) (st_r : PState),
      optimizePass paths eps = some states →
      states[j]? = some (.referring r, fp) →
      states[r]? = some (st_r, fpR) →
      (rewriteBody paths states).1[j]? =
        some (.useItem (fmt3 (fp.shift.1 - fpR.shift.1))
          (fmt3 (fp.shift.2 - fpR.shift.2)) r)) ∧
    (optimizePass [pathA, pathC] (1 / 10)).map (rewriteBody [pathA, pathC]) =
      some ([.useItem "0" "0" 0, .useItem "5.000" "5.000" 0], [0]) ∧
    fmt3 ((5 : ℚ) - 0) = "5.000" := by
  refine ⟨?_, ?_, ?_⟩
  · intro paths eps states j r fp fpR st_r _ hj hr
    have hjlen : j < states.length := by
      by_contra hc
      rw [List.getElem?_eq_none (le_of_not_lt hc)] at hj
      exact Option.noConfusion hj
    rw [rewriteBody_fst_get paths states j hjlen,
      rewriteItem_referring paths states j r fp hj, hr]
    rfl
  · with_unfolding_all decide
  · with_unfolding_all decide

/-- Witness for `C7_referring_translation`: the general rewrite property
applied at the concrete two-path scenario. -/
theorem C7_referring_translation_witness :
    (rewriteBody [pathA, pathC] [(.referred, fpA), (.referring 0, fpC)]).1[1]? =
      some (.useItem (fmt3 (fpC.shift.1 - fpA.shift.1))
        (fmt3 (fpC.shift.2 - fpA.shift.2)) 0) :=
  C7_referring_translation.1 [pathA, pathC] (1 / 10)
    [(.referred, fpA), (.referring 0, fpC)] 1 0 fpC fpA .referred
    (by with_unfolding_all decide) (by with_unfolding_all decide)
    (by with_unfolding_all decide)

/-- Claim C8: a path the first optimizer run classified `Referring` is not
present as a path element in the rewritten document — its position holds a
`use` reference, it is not collected into the definitions block, and every
leaf path of the rewritten document (the input of a second optimizer run)
stems from an occurrence the first run did *not* classify `Referring` — so
re-running the optimizer on its own output never reclassifies an
already-Referring path. -/
theorem C8_referring_not_reclassified
    (paths : List SPath) (eps : ℚ) (states : List (PState × PathFingerprint))
    (j r : ℕ) (fp : PathFingerprint)
    (_hrun : optimizePass paths eps = some states)
    (hj : states[j]? = some (.referring r, fp)) :
    (∃ x y, (rewriteBody paths states).1[j]? = some (.useItem x y r)) ∧
    (∀ p, (rewriteBody paths states).1[j]? ≠ some (.pathItem p)) ∧
    j ∉ (rewriteBody paths states).2 ∧
    (∀ q ∈ outputPaths paths states, ∃ (k : ℕ) (st : PState × PathFingerprint),
      states[k]? = some st ∧ st.1.isReferring = false ∧ paths[k]? = some q) := by
  have hjlen : j < states.length := by
    by_contra hc
    rw [List.getElem?_eq_none (le_of_not_lt hc)] at hj
    exact Option.noConfusion hj
  have hitem := rewriteItem_referring paths states j r fp hj
  refine ⟨?_, ?_, ?_, ?_⟩
  · exact ⟨_, _, by rw [rewriteBody_fst_get paths states j hjlen, hitem]⟩
  · intro p hp
    rw [rewriteBody_fst_get paths states j hjlen, hitem] at hp
    exact OutItem.noConfusion (Option.some.inj hp)
  · intro hmem
    have hpred := (List.mem_filter.mp hmem).2
    obtain ⟨fp', hfp'⟩ := defsPred_referred_inv states j hpred
    rw [hj] at hfp'
    have := (Prod.mk.injEq _ _ _ _).mp (Option.some.inj hfp')
    exact PState.noConfusion this.1
  · intro q hq
    rcases List.mem_append.mp hq with hq | hq
    · obtain ⟨it, hit, hex⟩ := List.mem_filterMap.mp hq
      obtain ⟨k, _, hkit⟩ := List.mem_map.mp hit
      rcases it with p' | ⟨x, y, hr⟩
      · have hpq : p' = q := by simpa using hex
        obtain ⟨fp', hsk, hpk⟩ :=
          rewriteItem_pathItem_inv paths states k q (by rw [hkit, hpq])
        exact ⟨k, (.standalone, fp'), hsk, rfl, hpk⟩
      · exact absurd hex (by simp)
    · obtain ⟨k, hk, hkq⟩ := List.mem_filterMap.mp hq
      have hpred := (List.mem_filter.mp hk).2
      obtain ⟨fp', hsk⟩ := defsPred_referred_inv states k hpred
      exact ⟨k, (.referred, fp'), hsk, rfl, hkq⟩

/-- Witness for `C8_referring_not_reclassified`: the Referring path of the
two-path scenario occupies a `use` position in the rewritten document. -/
theorem C8_referring_not_reclassified_witness :
    (∃ x y, (rewriteBody [pathA, pathC]
        [(.referred, fpA), (.referring 0, fpC)]).1[1]? =
      some (.useItem x y 0)) ∧
    (∀ p, (rewriteBody [pathA, pathC]
        [(.referred, fpA), (.referring 0, fpC)]).1[1]? ≠ some (.pathItem p)) ∧
    1 ∉ (rewriteBody [pathA, pathC] [(.referred, fpA), (.referring 0, fpC)]).2 ∧
    (∀ q ∈ outputPaths [pathA, pathC] [(.referred, fpA), (.referring 0, fpC)],
      ∃ (k : ℕ) (st : PState × PathFingerprint),
        [(.referred, fpA), (.referring 0, fpC)][k]? = some st ∧
        st.1.isReferring = false ∧ [pathA, pathC][k]? = some q) :=
  C8_referring_not_reclassified [pathA, pathC] (1 / 10)
    [(.referred, fpA), (.referring 0, fpC)] 1 0 fpC
    (by with_unfolding_all decide) (by with_unfolding_all decide)

/-! ## Claim C1: lemmas about the trie maps -/

theorem getCmd_mem :
    ∀ (cs : List (PathCommand × PathTree)) (c : PathCommand) (t : PathTree),
      getCmd c cs = some t → (c, t) ∈ cs
  | [], _, _, h => Option.noConfusion h
  | (c', t') :: rest, c, t, h => by
    unfold getCmd at h
    by_cases hc : c' = c
    · rw [if_pos hc] at h
      rw [hc] at *
      rw [Option.some.inj h] at *
      exact List.mem_cons_self _ _
    · rw [if_neg hc] at h
      exact List.mem_cons_of_mem _ (getCmd_mem rest c t h)

theorem getCoord_mem :
    ∀ (ks : List (ℚ × PathTree)) (x : ℚ) (t : PathTree),
      getCoord x ks = some t → (x, t) ∈ ks
  | [], _, _, h => Option.noConfusion h
  | (x', t') :: rest, x, t, h => by
    unfold getCoord at h
    by_cases hx : x' = x
    · rw [if_pos hx] at h
      rw [hx] at *
      rw [Option.some.inj h] at *
      exact List.mem_cons_self _ _
    · rw [if_neg hx] at h
      exact List.mem_cons_of_mem _ (getCoord_mem rest x t h)

theorem getCoord_of_mem :
    ∀ (ks : List (ℚ × PathTree)) (x : ℚ) (t : PathTree),
      List.Pairwise (fun a b : ℚ × PathTree => a.1 < b.1) ks →
      (x, t) ∈ ks → getCoord x ks = some t
  | [], _, _, _, hm => absurd hm (List.not_mem_nil _)
  | (x', t') :: rest, x, t, hs, hm => by
    obtain ⟨hhead, htail⟩ := List.pairwise_cons.mp hs
    rcases List.mem_cons.mp hm with he | hm'
    · injection he with he1 he2
      subst he1
      subst he2
      unfold getCoord
      rw [if_pos rfl]
    · have hne : x' ≠ x := by
        intro hc
        have := hhead (x, t) hm'
        rw [hc] at this
        exact lt_irrefl x this
      unfold getCoord
      rw [if_neg hne]
      exact getCoord_of_mem rest x t htail hm'

theorem getCoord_cons (k : ℚ) (t : PathTree) (rest : List (ℚ × PathTree)) (q : ℚ) :
    getCoord q ((k, t) :: rest) = if k = q then some t else getCoord q rest := rfl

theorem getCmd_cons (k : PathCommand) (t : PathTree)
    (rest : List (PathCommand × PathTree)) (q : PathCommand) :
    getCmd q ((k, t) :: rest) = if k = q then some t else getCmd q rest := rfl

theorem updateCoord_cons (x : ℚ) (f : Option PathTree → PathTree) (x0 : ℚ)
    (t0 : PathTree) (rest : List (ℚ × PathTree)) :
    updateCoord x f ((x0, t0) :: rest) =
      if x0 = x then (x0, f (some t0)) :: rest
      else if x < x0 then (x, f none) :: (x0, t0) :: rest
      else (x0, t0) :: updateCoord x f rest := rfl

theorem updateCmd_cons (x : PathCommand) (f : Option PathTree → PathTree)
    (x0 : PathCommand) (t0 : PathTree) (rest : List (PathCommand × PathTree)) :
    updateCmd x f ((x0, t0) :: rest) =
      if x0 = x then (x0, f (some t0)) :: rest
      else (x0, t0) :: updateCmd x f rest := rfl

theorem getCoord_updateCoord :
    ∀ (ks : List (ℚ × PathTree)) (x q : ℚ) (f : Option PathTree → PathTree),
      List.Pairwise (fun a b : ℚ × PathTree => a.1 < b.1) ks →
      getCoord q (updateCoord x f ks) =
        if q = x then some (f (getCoord x ks)) else getCoord q ks
  | [], x, q, f, _ => by
    show getCoord q [(x, f none)] = _
    rw [getCoord_cons]
    by_cases hq : q = x
    · subst hq
      rw [if_pos rfl, if_pos rfl]
      rfl
    · rw [if_neg (fun hc => hq hc.symm), if_neg hq]
  | (x0, t0) :: rest, x, q, f, hs => by
    obtain ⟨hhead, htail⟩ := List.pairwise_cons.mp hs
    rw [updateCoord_cons]
    by_cases h1 : x0 = x
    · subst h1
      rw [if_pos rfl]
      by_cases h2 : q = x0
      · subst h2
        rw [getCoord_cons, if_pos rfl, if_pos rfl, getCoord_cons, if_pos rfl]
      · rw [getCoord_cons, if_neg (fun hc => h2 hc.symm), if_neg h2,
          getCoord_cons, if_neg (fun hc => h2 hc.symm)]
    · rw [if_neg h1]
      by_cases h2 : x < x0
      · rw [if_pos h2]
        by_cases h3 : q = x
        · subst h3
          rw [getCoord_cons, if_pos rfl, if_pos rfl]
          have hnone : getCoord q ((x0, t0) :: rest) = none := by
            rw [getCoord_cons, if_neg h1]
            rcases hres : getCoord q rest with _ | tt
            · rfl
            · exfalso
              have := hhead _ (getCoord_mem rest q tt hres)
              exact absurd (lt_trans h2 this) (lt_irrefl q)
          rw [hnone]
        · rw [getCoord_cons, if_neg (fun hc => h3 hc.symm), if_neg h3]
      · rw [if_neg h2]
        by_cases h3 : x0 = q
        · subst h3
          rw [getCoord_cons, if_pos rfl,
            if_neg (fun hc : x0 = x => h1 hc), getCoord_cons, if_pos rfl]
        · rw [getCoord_cons, if_neg h3,
            getCoord_updateCoord rest x q f htail]
          by_cases h4 : q = x
          · rw [if_pos h4, if_pos h4, getCoord_cons, if_neg h1]
          · rw [if_neg h4, if_neg h4, getCoord_cons, if_neg h3]

theorem getCmd_updateCmd :
    ∀ (cs : List (PathCommand × PathTree)) (c q : PathCommand)
      (f : Option PathTree → PathTree),
      getCmd q (updateCmd c f cs) =
        if q = c then some (f (getCmd c cs)) else getCmd q cs
  | [], c, q, f => by
    show getCmd q [(c, f none)] = _
    rw [getCmd_cons]
    by_cases hq : q = c
    · subst hq
      rw [if_pos rfl, if_pos rfl]
      rfl
    · rw [if_neg (fun hc => hq hc.symm), if_neg hq]
  | (c0, t0) :: rest, c, q, f => by
    rw [updateCmd_cons]
    by_cases h1 : c0 = c
    · subst h1
      rw [if_pos rfl]
      by_cases h2 : q = c0
      · subst h2
        rw [getCmd_cons, if_pos rfl, if_pos rfl, getCmd_cons, if_pos rfl]
      · rw [getCmd_cons, if_neg (fun hc => h2 hc.symm), if_neg h2,
          getCmd_cons, if_neg (fun hc => h2 hc.symm)]
    · rw [if_neg h1]
      by_cases h3 : c0 = q
      · subst h3
        rw [getCmd_cons, if_pos rfl,
          if_neg (fun hc : c0 = c => h1 hc), getCmd_cons, if_pos rfl]
      · rw [getCmd_cons, if_neg h3, getCmd_updateCmd rest c q f]
        by_cases h4 : q = c
        · rw [if_pos h4, if_pos h4, getCmd_cons, if_neg h1]
        · rw [if_neg h4, if_neg h4, getCmd_cons, if_neg h3]

theorem updateCmd_mem :
    ∀ (cs : List (PathCommand × PathTree)) (c : PathCommand)
      (f : Option PathTree → PathTree) (pr : PathCommand × PathTree),
      pr ∈ updateCmd c f cs →
      pr ∈ cs ∨ (pr.1 = c ∧ (pr.2 = f none ∨ ∃ told, (c, told) ∈ cs ∧ pr.2 = f (some told)))
  | [], c, f, pr, h => by
    rw [show updateCmd c f [] = [(c, f none)] from rfl] at h
    rw [List.mem_singleton.mp h]
    exact .inr ⟨rfl, .inl rfl⟩
  | (c0, t0) :: rest, c, f, pr, h => by
    rw [updateCmd_cons] at h
    by_cases h1 : c0 = c
    · rw [if_pos h1] at h
      rcases List.mem_cons.mp h with he | hm
      · subst h1
        rw [he]
        exact .inr ⟨rfl, .inr ⟨t0, List.mem_cons_self _ _, rfl⟩⟩
      · exact .inl (List.mem_cons_of_mem _ hm)
    · rw [if_neg h1] at h
      rcases List.mem_cons.mp h with he | hm
      · rw [he]
        exact .inl (List.mem_cons_self _ _)
      · rcases updateCmd_mem rest c f pr hm with hc | ⟨hk, hv⟩
        · exact .inl (List.mem_cons_of_mem _ hc)
        · refine .inr ⟨hk, ?_⟩
          rcases hv with hv | ⟨told, htm, hv⟩
          · exact .inl hv
          · exact .inr ⟨told, List.mem_cons_of_mem _ htm, hv⟩

theorem updateCoord_mem :
    ∀ (ks : List (ℚ × PathTree)) (x : ℚ)
      (f : Option PathTree → PathTree) (pr : ℚ × PathTree),
      pr ∈ updateCoord x f ks →
      pr ∈ ks ∨ (pr.1 = x ∧ (pr.2 = f none ∨ ∃ told, (x, told) ∈ ks ∧ pr.2 = f (some told)))
  | [], x, f, pr, h => by
    rw [show updateCoord x f [] = [(x, f none)] from rfl] at h
    rw [List.mem_singleton.mp h]
    exact .inr ⟨rfl, .inl rfl⟩
  | (x0, t0) :: rest, x, f, pr, h => by
    rw [updateCoord_cons] at h
    by_cases h1 : x0 = x
    · rw [if_pos h1] at h
      rcases List.mem_cons.mp h with he | hm
      · subst h1
        rw [he]
        exact .inr ⟨rfl, .inr ⟨t0, List.mem_cons_self _ _, rfl⟩⟩
      · exact .inl (List.mem_cons_of_mem _ hm)
    · rw [if_neg h1] at h
      by_cases h2 : x < x0
      · rw [if_pos h2] at h
        rcases List.mem_cons.mp h with he | hm
        · rw [he]
          exact .inr ⟨rfl, .inl rfl⟩
        · exact .inl hm
      · rw [if_neg h2] at h
        rcases List.mem_cons.mp h with he | hm
        · rw [he]
          exact .inl (List.mem_cons_self _ _)
        · rcases updateCoord_mem rest x f pr hm with hc | ⟨hk, hv⟩
          · exact .inl (List.mem_cons_of_mem _ hc)
          · refine .inr ⟨hk, ?_⟩
            rcases hv with hv | ⟨told, htm, hv⟩
            · exact .inl hv
            · exact .inr ⟨told, List.mem_cons_of_mem _ htm, hv⟩

theorem updateCmd_keys :
    ∀ (cs : List (PathCommand × PathTree)) (c : PathCommand)
      (f : Option PathTree → PathTree) (k : PathCommand),
      k ∈ (updateCmd c f cs).map Prod.fst → k ∈ cs.map Prod.fst ∨ k = c
  | [], c, f, k, h => by
    rw [show updateCmd c f [] = [(c, f none)] from rfl] at h
    simp at h
    exact .inr h
  | (c0, t0) :: rest, c, f, k, h => by
    rw [updateCmd_cons] at h
    by_cases h1 : c0 = c
    · rw [if_pos h1] at h
      exact .inl h
    · rw [if_neg h1] at h
      simp only [List.map_cons, List.mem_cons] at h ⊢
      rcases h with he | hm
      · exact .inl (.inl he)
      · rcases updateCmd_keys rest c f k hm with hc | hc
        · exact .inl (.inr hc)
        · exact .inr hc

theorem updateCoord_keys :
    ∀ (ks : List (ℚ × PathTree)) (x : ℚ)
      (f : Option PathTree → PathTree) (k : ℚ),
      k ∈ (updateCoord x f ks).map Prod.fst → k ∈ ks.map Prod.fst ∨ k = x
  | [], x, f, k, h => by
    rw [show updateCoord x f [] = [(x, f none)] from rfl] at h
    simp at h
    exact .inr h
  | (x0, t0) :: rest, x, f, k, h => by
    rw [updateCoord_cons] at h
    by_cases h1 : x0 = x
    · rw [if_pos h1] at h
      exact .inl h
    · rw [if_neg h1] at h
      by_cases h2 : x < x0
      · rw [if_pos h2] at h
        simp only [List.map_cons, List.mem_cons] at h ⊢
        rcases h with he | h
        · exact .inr he
        · exact .inl h
      · rw [if_neg h2] at h
        simp only [List.map_cons, List.mem_cons] at h ⊢
        rcases h with he | hm
        · exact .inl (.inl he)
        · rcases updateCoord_keys rest x f k hm with hc | hc
          · exact .inl (.inr hc)
          · exact .inr hc

theorem updateCmd_nodup :
    ∀ (cs : List (PathCommand × PathTree)) (c : PathCommand)
      (f : Option PathTree → PathTree),
      (cs.map Prod.fst).Nodup → ((updateCmd c f cs).map Prod.fst).Nodup
  | [], c, f, _ => by
    rw [show updateCmd c f [] = [(c, f none)] from rfl]
    simp
  | (c0, t0) :: rest, c, f, hnd => by
    rw [List.map_cons, List.nodup_cons] at hnd
    rw [updateCmd_cons]
    by_cases h1 : c0 = c
    · rw [if_pos h1]
      rw [List.map_cons, List.nodup_cons]
      exact hnd
    · rw [if_neg h1]
      rw [List.map_cons, List.nodup_cons]
      refine ⟨?_, updateCmd_nodup rest c f hnd.2⟩
      intro hc
      rcases updateCmd_keys rest c f c0 hc with hc' | hc'
      · exact hnd.1 hc'
      · exact h1 hc'

theorem updateCoord_sorted :
    ∀ (ks : List (ℚ × PathTree)) (x : ℚ) (f : Option PathTree → PathTree),
      List.Pairwise (fun a b : ℚ × PathTree => a.1 < b.1) ks →
      List.Pairwise (fun a b : ℚ × PathTree => a.1 < b.1) (updateCoord x f ks)
  | [], x, f, _ => by
    rw [show updateCoord x f [] = [(x, f none)] from rfl]
    exact List.pairwise_singleton _ _
  | (x0, t0) :: rest, x, f, hs => by
    obtain ⟨hhead, htail⟩ := List.pairwise_cons.mp hs
    rw [updateCoord_cons]
    by_cases h1 : x0 = x
    · rw [if_pos h1]
      exact List.pairwise_cons.mpr ⟨hhead, htail⟩
    · rw [if_neg h1]
      by_cases h2 : x < x0
      · rw [if_pos h2]
        refine List.pairwise_cons.mpr ⟨?_, hs⟩
        intro pr hpr
        rcases List.mem_cons.mp hpr with he | hm
        · rw [he]
          exact h2
        · exact lt_trans h2 (hhead pr hm)
      · rw [if_neg h2]
        have hgt : x0 < x := by
          rcases lt_trichotomy x0 x with hlt | he | hgt
          · exact hlt
          · exact absurd he h1
          · exact absurd hgt h2
        refine List.pairwise_cons.mpr ⟨?_, updateCoord_sorted rest x f htail⟩
        intro pr hpr
        have hk : pr.1 ∈ (updateCoord x f rest).map Prod.fst :=
          List.mem_map_of_mem Prod.fst hpr
        rcases updateCoord_keys rest x f pr.1 hk with hc | hc
        · obtain ⟨pr', hpr', he⟩ := List.mem_map.mp hc
          rw [← he]
          exact hhead pr' hpr'
        · rw [hc]
          exact hgt

theorem TreeWF_empty : TreeWF PathTree.empty :=
  TreeWF.mk [] [] [] List.nodup_nil List.Pairwise.nil
    (fun _ h => absurd h (List.not_mem_nil _))
    (fun _ h => absurd h (List.not_mem_nil _))

theorem insertSlice_WF (p : SPath) :
    ∀ (es : List FPElem) (t : PathTree), TreeWF t → TreeWF (insertSlice p es t)
  | [], t, hwf => by
    cases hwf with
    | mk cs ks ps hcs hks hc hk =>
      exact TreeWF.mk cs ks (ps ++ [p]) hcs hks hc hk
  | .cmd c :: rest, t, hwf => by
    cases hwf with
    | mk cs ks ps hcs hks hc hk =>
      refine TreeWF.mk _ ks ps (updateCmd_nodup cs c _ hcs) hks ?_ hk
      intro pr hpr
      rcases updateCmd_mem cs c _ pr hpr with hm | ⟨_, hv⟩
      · exact hc pr hm
      · rcases hv with hv | ⟨told, htm, hv⟩
        · rw [hv]
          exact insertSlice_WF p rest _ TreeWF_empty
        · rw [hv]
          exact insertSlice_WF p rest _ (hc (c, told) htm)
  | .coord x :: rest, t, hwf => by
    cases hwf with
    | mk cs ks ps hcs hks hc hk =>
      refine TreeWF.mk cs _ ps hcs (updateCoord_sorted ks x _ hks) hc ?_
      intro pr hpr
      rcases updateCoord_mem ks x _ pr hpr with hm | ⟨_, hv⟩
      · exact hk pr hm
      · rcases hv with hv | ⟨told, htm, hv⟩
        · rw [hv]
          exact insertSlice_WF p rest _ TreeWF_empty
        · rw [hv]
          exact insertSlice_WF p rest _ (hk (x, told) htm)

theorem nodeAt_nil (t : PathTree) : nodeAt [] t = some t := rfl

theorem nodeAt_cmd (c : PathCommand) (su : List FPElem) (t : PathTree) :
    nodeAt (.cmd c :: su) t =
      match getCmd c t.cmd_nodes with
      | some t' => nodeAt su t'
      | none => none := rfl

theorem nodeAt_coord (x : ℚ) (su : List FPElem) (t : PathTree) :
    nodeAt (.coord x :: su) t =
      match getCoord x t.coord_nodes with
      | some t' => nodeAt su t'
      | none => none := rfl

theorem nodeAt_empty :
    ∀ (su : List FPElem) (m : PathTree),
      nodeAt su PathTree.empty = some m → su = [] ∧ m = PathTree.empty
  | [], m, h => ⟨rfl, (Option.some_inj.mp h).symm⟩
  | .cmd c :: su, m, h => by
    rw [nodeAt_cmd] at h
    exact Option.noConfusion h
  | .coord x :: su, m, h => by
    rw [nodeAt_coord] at h
    exact Option.noConfusion h

theorem insertSlice_nil (p : SPath) (t : PathTree) :
    insertSlice p [] t = .mk t.cmd_nodes t.coord_nodes (t.paths ++ [p]) := rfl

theorem insertSlice_cmd (p : SPath) (c : PathCommand) (rest : List FPElem) (t : PathTree) :
    insertSlice p (.cmd c :: rest) t =
      .mk (updateCmd c (fun old => insertSlice p rest (old.getD PathTree.empty)) t.cmd_nodes)
        t.coord_nodes t.paths := rfl

theorem insertSlice_coord (p : SPath) (x : ℚ) (rest : List FPElem) (t : PathTree) :
    insertSlice p (.coord x :: rest) t =
      .mk t.cmd_nodes
        (updateCoord x (fun old => insertSlice p rest (old.getD PathTree.empty)) t.coord_nodes)
        t.paths := rfl

theorem nodeAt_insertSlice_some (p : SPath) :
    ∀ (es : List FPElem) (t : PathTree), TreeWF t →
      ∀ (su : List FPElem) (m0 : PathTree), nodeAt su t = some m0 →
      ∃ m1, nodeAt su (insertSlice p es t) = some m1 ∧
        m1.paths = m0.paths ++ (if su = es then [p] else [])
  | [], t, _, su, m0, h => by
    rcases t with ⟨cs, ks, ps⟩
    rcases su with _ | ⟨e, su'⟩
    · rw [nodeAt_nil] at h
      rw [Option.some_inj.mp h]
      exact ⟨_, nodeAt_nil _, by simp [insertSlice_nil, PathTree.paths]⟩
    · rcases e with c | x
      · rw [nodeAt_cmd] at h
        dsimp only [PathTree.cmd_nodes] at h
        rcases hg : getCmd c cs with _ | child
        · rw [hg] at h
          exact Option.noConfusion h
        · rw [hg] at h
          refine ⟨m0, ?_, by simp⟩
          rw [insertSlice_nil, nodeAt_cmd]
          dsimp only [PathTree.cmd_nodes]
          rw [hg]
          exact h
      · rw [nodeAt_coord] at h
        dsimp only [PathTree.coord_nodes] at h
        rcases hg : getCoord x ks with _ | child
        · rw [hg] at h
          exact Option.noConfusion h
        · rw [hg] at h
          refine ⟨m0, ?_, by simp⟩
          rw [insertSlice_nil, nodeAt_coord]
          dsimp only [PathTree.coord_nodes]
          rw [hg]
          exact h
  | .cmd c :: rest, t, hwf, su, m0, h => by
    rcases hwf with ⟨cs, ks, ps, hcs, hks, hc, hk⟩
    rcases su with _ | ⟨e, su'⟩
    · rw [nodeAt_nil] at h
      rw [Option.some_inj.mp h]
      refine ⟨_, nodeAt_nil _, ?_⟩
      rw [insertSlice_cmd]
      simp [PathTree.paths]
    · rcases e with c0 | x0
      · rw [nodeAt_cmd] at h
        dsimp only [PathTree.cmd_nodes] at h
        rcases hg : getCmd c0 cs with _ | child
        · rw [hg] at h
          exact Option.noConfusion h
        · rw [hg] at h
          by_cases hcc : c0 = c
          · subst hcc
            have hwfc : TreeWF child := hc (c0, child) (getCmd_mem cs c0 child hg)
            obtain ⟨m1, hm1, hp1⟩ := nodeAt_insertSlice_some p rest child hwfc su' m0 h
            refine ⟨m1, ?_, ?_⟩
            · rw [insertSlice_cmd, nodeAt_cmd]
              dsimp only [PathTree.cmd_nodes]
              rw [getCmd_updateCmd cs c0 c0 _, if_pos rfl, hg]
              exact hm1
            · rw [hp1]
              by_cases hsu : su' = rest
              · rw [if_pos hsu, if_pos (by rw [hsu])]
              · rw [if_neg hsu, if_neg (by intro hx; exact hsu (by injection hx))]
          · refine ⟨m0, ?_, by rw [if_neg (by intro hx; injection hx with h1 h2; injection h1 with h3; exact hcc h3)]; simp⟩
            rw [insertSlice_cmd, nodeAt_cmd]
            dsimp only [PathTree.cmd_nodes]
            rw [getCmd_updateCmd cs c c0 _, if_neg hcc, hg]
            exact h
      · rw [nodeAt_coord] at h
        dsimp only [PathTree.coord_nodes] at h
        rcases hg : getCoord x0 ks with _ | child
        · rw [hg] at h
          exact Option.noConfusion h
        · rw [hg] at h
          refine ⟨m0, ?_, by simp⟩
          rw [insertSlice_cmd, nodeAt_coord]
          dsimp only [PathTree.coord_nodes]
          rw [hg]
          exact h
  | .coord x :: rest, t, hwf, su, m0, h => by
    rcases hwf with ⟨cs, ks, ps, hcs, hks, hc, hk⟩
    rcases su with _ | ⟨e, su'⟩
    · rw [nodeAt_nil] at h
      rw [Option.some_inj.mp h]
      refine ⟨_, nodeAt_nil _, ?_⟩
      rw [insertSlice_coord]
      simp [PathTree.paths]
    · rcases e with c0 | x0
      · rw [nodeAt_cmd] at h
        dsimp only [PathTree.cmd_nodes] at h
        rcases hg : getCmd c0 cs with _ | child
        · rw [hg] at h
          exact Option.noConfusion h
        · rw [hg] at h
          refine ⟨m0, ?_, by simp⟩
          rw [insertSlice_coord, nodeAt_cmd]
          dsimp only [PathTree.cmd_nodes]
          rw [hg]
          exact h
      · rw [nodeAt_coord] at h
        dsimp only [PathTree.coord_nodes] at h
        rcases hg : getCoord x0 ks with _ | child
        · rw [hg] at h
          exact Option.noConfusion h
        · rw [hg] at h
          by_cases hxx : x0 = x
          · subst hxx
            have hwfc : TreeWF child := hk (x0, child) (getCoord_mem ks x0 child hg)
            obtain ⟨m1, hm1, hp1⟩ := nodeAt_insertSlice_some p rest child hwfc su' m0 h
            refine ⟨m1, ?_, ?_⟩
            · rw [insertSlice_coord, nodeAt_coord]
              dsimp only [PathTree.coord_nodes]
              rw [getCoord_updateCoord ks x0 x0 _ hks, if_pos rfl, hg]
              exact hm1
            · rw [hp1]
              by_cases hsu : su' = rest
              · rw [if_pos hsu, if_pos (by rw [hsu])]
              · rw [if_neg hsu, if_neg (by intro hx; exact hsu (by injection hx))]
          · refine ⟨m0, ?_, by rw [if_neg (by intro hx; injection hx with h1 h2; injection h1 with h3; exact hxx h3)]; simp⟩
            rw [insertSlice_coord, nodeAt_coord]
            dsimp only [PathTree.coord_nodes]
            rw [getCoord_updateCoord ks x x0 _ hks, if_neg hxx, hg]
            exact h

theorem nodeAt_insertSlice_inv (p : SPath) :
    ∀ (es : List FPElem) (t : PathTree), TreeWF t →
      ∀ (su : List FPElem) (m1 : PathTree), nodeAt su (insertSlice p es t) = some m1 →
      (∃ m0, nodeAt su t = some m0 ∧ m1.paths = m0.paths ++ (if su = es then [p] else [])) ∨
      (nodeAt su t = none ∧ su <+: es ∧ m1.paths = (if su = es then [p] else []))
  | [], t, _, su, m1, h => by
    rcases t with ⟨cs, ks, ps⟩
    rcases su with _ | ⟨e, su'⟩
    · rw [insertSlice_nil, nodeAt_nil] at h
      rw [← Option.some_inj.mp h]
      exact .inl ⟨_, nodeAt_nil _, by simp [PathTree.paths]⟩
    · rcases e with c | x
      · rw [insertSlice_nil, nodeAt_cmd] at h
        dsimp only [PathTree.cmd_nodes] at h
        rcases hg : getCmd c cs with _ | child
        · rw [hg] at h
          exact Option.noConfusion h
        · rw [hg] at h
          refine .inl ⟨m1, ?_, by simp⟩
          rw [nodeAt_cmd]
          dsimp only [PathTree.cmd_nodes]
          rw [hg]
          exact h
      · rw [insertSlice_nil, nodeAt_coord] at h
        dsimp only [PathTree.coord_nodes] at h
        rcases hg : getCoord x ks with _ | child
        · rw [hg] at h
          exact Option.noConfusion h
        · rw [hg] at h
          refine .inl ⟨m1, ?_, by simp⟩
          rw [nodeAt_coord]
          dsimp only [PathTree.coord_nodes]
          rw [hg]
          exact h
  | .cmd c :: rest, t, hwf, su, m1, h => by
    rcases hwf with ⟨cs, ks, ps, hcs, hks, hc, hk⟩
    rcases su with _ | ⟨e, su'⟩
    · rw [insertSlice_cmd, nodeAt_nil] at h
      rw [← Option.some_inj.mp h]
      exact .inl ⟨_, nodeAt_nil _, by simp [PathTree.paths]⟩
    · rcases e with c0 | x0
      · rw [insertSlice_cmd, nodeAt_cmd] at h
        dsimp only [PathTree.cmd_nodes] at h
        rw [getCmd_updateCmd] at h
        by_cases hcc : c0 = c
        · subst hcc
          rw [if_pos rfl] at h
          rcases hgc : getCmd c0 cs with _ | child
          · rw [hgc] at h
            have h' : nodeAt su' (insertSlice p rest PathTree.empty) = some m1 := h
            rcases nodeAt_insertSlice_inv p rest PathTree.empty TreeWF_empty su' m1 h' with
              ⟨m0, hm0, hp0⟩ | ⟨hn, hpre, hp0⟩
            · obtain ⟨he, hm⟩ := nodeAt_empty su' m0 hm0
              subst he
              refine .inr ⟨?_, ?_, ?_⟩
              · rw [nodeAt_cmd]
                dsimp only [PathTree.cmd_nodes]
                rw [hgc]
              · exact List.cons_prefix_cons.mpr ⟨rfl, List.nil_prefix⟩
              · rw [hp0, hm]
                by_cases hr : ([] : List FPElem) = rest
                · rw [if_pos hr, if_pos (by rw [← hr])]
                  simp [PathTree.empty, PathTree.paths]
                · rw [if_neg hr, if_neg (by intro hx; injection hx with h1 h2; exact hr h2)]
                  simp [PathTree.empty, PathTree.paths]
            · refine .inr ⟨?_, ?_, ?_⟩
              · rw [nodeAt_cmd]
                dsimp only [PathTree.cmd_nodes]
                rw [hgc]
              · exact List.cons_prefix_cons.mpr ⟨rfl, hpre⟩
              · rw [hp0]
                by_cases hr : su' = rest
                · rw [if_pos hr, if_pos (by rw [hr])]
                · rw [if_neg hr, if_neg (by intro hx; injection hx with h1 h2; exact hr h2)]
          · rw [hgc] at h
            have h' : nodeAt su' (insertSlice p rest child) = some m1 := h
            have hwfc : TreeWF child := hc (c0, child) (getCmd_mem cs c0 child hgc)
            rcases nodeAt_insertSlice_inv p rest child hwfc su' m1 h' with
              ⟨m0, hm0, hp0⟩ | ⟨hn, hpre, hp0⟩
            · refine .inl ⟨m0, ?_, ?_⟩
              · rw [nodeAt_cmd]
                dsimp only [PathTree.cmd_nodes]
                rw [hgc]
                exact hm0
              · rw [hp0]
                by_cases hr : su' = rest
                · rw [if_pos hr, if_pos (by rw [hr])]
                · rw [if_neg hr, if_neg (by intro hx; injection hx with h1 h2; exact hr h2)]
            · refine .inr ⟨?_, List.cons_prefix_cons.mpr ⟨rfl, hpre⟩, ?_⟩
              · rw [nodeAt_cmd]
                dsimp only [PathTree.cmd_nodes]
                rw [hgc]
                exact hn
              · rw [hp0]
                by_cases hr : su' = rest
                · rw [if_pos hr, if_pos (by rw [hr])]
                · rw [if_neg hr, if_neg (by intro hx; injection hx with h1 h2; exact hr h2)]
        · rw [if_neg hcc] at h
          rcases hgc : getCmd c0 cs with _ | child
          · rw [hgc] at h
            exact Option.noConfusion h
          · rw [hgc] at h
            refine .inl ⟨m1, ?_, ?_⟩
            · rw [nodeAt_cmd]
              dsimp only [PathTree.cmd_nodes]
              rw [hgc]
              exact h
            · rw [if_neg (by intro hx; injection hx with h1 h2; injection h1 with h3; exact hcc h3)]
              simp
      · rw [insertSlice_cmd, nodeAt_coord] at h
        dsimp only [PathTree.coord_nodes] at h
        rcases hgc : getCoord x0 ks with _ | child
        · rw [hgc] at h
          exact Option.noConfusion h
        · rw [hgc] at h
          refine .inl ⟨m1, ?_, by simp⟩
          rw [nodeAt_coord]
          dsimp only [PathTree.coord_nodes]
          rw [hgc]
          exact h
  | .coord x :: rest, t, hwf, su, m1, h => by
    rcases hwf with ⟨cs, ks, ps, hcs, hks, hc, hk⟩
    rcases su with _ | ⟨e, su'⟩
    · rw [insertSlice_coord, nodeAt_nil] at h
      rw [← Option.some_inj.mp h]
      exact .inl ⟨_, nodeAt_nil _, by simp [PathTree.paths]⟩
    · rcases e with c0 | x0
      · rw [insertSlice_coord, nodeAt_cmd] at h
        dsimp only [PathTree.cmd_nodes] at h
        rcases hgc : getCmd c0 cs with _ | child
        · rw [hgc] at h
          exact Option.noConfusion h
        · rw [hgc] at h
          refine .inl ⟨m1, ?_, by simp⟩
          rw [nodeAt_cmd]
          dsimp only [PathTree.cmd_nodes]
          rw [hgc]
          exact h
      · rw [insertSlice_coord, nodeAt_coord] at h
        dsimp only [PathTree.coord_nodes] at h
        rw [getCoord_updateCoord ks x x0 _ hks] at h
        by_cases hxx : x0 = x
        · subst hxx
          rw [if_pos rfl] at h
          rcases hgc : getCoord x0 ks with _ | child
          · rw [hgc] at h
            have h' : nodeAt su' (insertSlice p rest PathTree.empty) = some m1 := h
            rcases nodeAt_insertSlice_inv p rest PathTree.empty TreeWF_empty su' m1 h' with
              ⟨m0, hm0, hp0⟩ | ⟨hn, hpre, hp0⟩
            · obtain ⟨he, hm⟩ := nodeAt_empty su' m0 hm0
              subst he
              refine .inr ⟨?_, ?_, ?_⟩
              · rw [nodeAt_coord]
                dsimp only [PathTree.coord_nodes]
                rw [hgc]
              · exact List.cons_prefix_cons.mpr ⟨rfl, List.nil_prefix⟩
              · rw [hp0, hm]
                by_cases hr : ([] : List FPElem) = rest
                · rw [if_pos hr, if_pos (by rw [← hr])]
                  simp [PathTree.empty, PathTree.paths]
                · rw [if_neg hr, if_neg (by intro hx; injection hx with h1 h2; exact hr h2)]
                  simp [PathTree.empty, PathTree.paths]
            · refine .inr ⟨?_, ?_, ?_⟩
              · rw [nodeAt_coord]
                dsimp only [PathTree.coord_nodes]
                rw [hgc]
              · exact List.cons_prefix_cons.mpr ⟨rfl, hpre⟩
              · rw [hp0]
                by_cases hr : su' = rest
                · rw [if_pos hr, if_pos (by rw [hr])]
                · rw [if_neg hr, if_neg (by intro hx; injection hx with h1 h2; exact hr h2)]
          · rw [hgc] at h
            have h' : nodeAt su' (insertSlice p rest child) = some m1 := h
            have hwfc : TreeWF child := hk (x0, child) (getCoord_mem ks x0 child hgc)
            rcases nodeAt_insertSlice_inv p rest child hwfc su' m1 h' with
              ⟨m0, hm0, hp0⟩ | ⟨hn, hpre, hp0⟩
            · refine .inl ⟨m0, ?_, ?_⟩
              · rw [nodeAt_coord]
                dsimp only [PathTree.coord_nodes]
                rw [hgc]
                exact hm0
              · rw [hp0]
                by_cases hr : su' = rest
                · rw [if_pos hr, if_pos (by rw [hr])]
                · rw [if_neg hr, if_neg (by intro hx; injection hx with h1 h2; exact hr h2)]
            · refine .inr ⟨?_, List.cons_prefix_cons.mpr ⟨rfl, hpre⟩, ?_⟩
              · rw [nodeAt_coord]
                dsimp only [PathTree.coord_nodes]
                rw [hgc]
                exact hn
              · rw [hp0]
                by_cases hr : su' = rest
                · rw [if_pos hr, if_pos (by rw [hr])]
                · rw [if_neg hr, if_neg (by intro hx; injection hx with h1 h2; exact hr h2)]
        · rw [if_neg hxx] at h
          rcases hgc : getCoord x0 ks with _ | child
          · rw [hgc] at h
            exact Option.noConfusion h
          · rw [hgc] at h
            refine .inl ⟨m1, ?_, ?_⟩
            · rw [nodeAt_coord]
              dsimp only [PathTree.coord_nodes]
              rw [hgc]
              exact h
            · rw [if_neg (by intro hx; injection hx with h1 h2; injection h1 with h3; exact hxx h3)]
              simp

theorem nodeAt_insertSlice_self (p : SPath) :
    ∀ (es : List FPElem) (t : PathTree), TreeWF t →
      ∃ m1, nodeAt es (insertSlice p es t) = some m1 ∧ p ∈ m1.paths
  | [], t, _ => by
    refine ⟨_, nodeAt_nil _, ?_⟩
    rw [insertSlice_nil]
    simp [PathTree.paths]
  | .cmd c :: rest, t, hwf => by
    rcases hwf with ⟨cs, ks, ps, hcs, hks, hc, hk⟩
    rw [insertSlice_cmd, nodeAt_cmd]
    dsimp only [PathTree.cmd_nodes]
    rw [getCmd_updateCmd, if_pos rfl]
    rcases hgc : getCmd c cs with _ | child
    · obtain ⟨m1, hm1, hp1⟩ := nodeAt_insertSlice_self p rest PathTree.empty TreeWF_empty
      exact ⟨m1, hm1, hp1⟩
    · have hwfc : TreeWF child := hc (c, child) (getCmd_mem cs c child hgc)
      obtain ⟨m1, hm1, hp1⟩ := nodeAt_insertSlice_self p rest child hwfc
      exact ⟨m1, hm1, hp1⟩
  | .coord x :: rest, t, hwf => by
    rcases hwf with ⟨cs, ks, ps, hcs, hks, hc, hk⟩
    rw [insertSlice_coord, nodeAt_coord]
    dsimp only [PathTree.coord_nodes]
    rw [getCoord_updateCoord ks x x _ hks, if_pos rfl]
    rcases hgc : getCoord x ks with _ | child
    · obtain ⟨m1, hm1, hp1⟩ := nodeAt_insertSlice_self p rest PathTree.empty TreeWF_empty
      exact ⟨m1, hm1, hp1⟩
    · have hwfc : TreeWF child := hk (x, child) (getCoord_mem ks x child hgc)
      obtain ⟨m1, hm1, hp1⟩ := nodeAt_insertSlice_self p rest child hwfc
      exact ⟨m1, hm1, hp1⟩

theorem matchesB_length (eps : ℚ) :
    ∀ (xs ys : List FPElem), matchesB eps xs ys = true → xs.length = ys.length
  | [], [], _ => rfl
  | [], _ :: _, h => Bool.noConfusion h
  | _ :: _, [], h => Bool.noConfusion h
  | x :: xs, y :: ys, h => by
    rw [show matchesB eps (x :: xs) (y :: ys) = (keyMatches eps x y && matchesB eps xs ys) from rfl,
      Bool.and_eq_true] at h
    rw [List.length_cons, List.length_cons, matchesB_length eps xs ys h.2]

theorem matchesB_cons (eps : ℚ) (x y : FPElem) (xs ys : List FPElem) :
    matchesB eps (x :: xs) (y :: ys) = (keyMatches eps x y && matchesB eps xs ys) := rfl

theorem foldl_fpStep_ne (tr : Transform) :
    ∀ (segs : List PathSegment) (acc : Option (ℚ × ℚ) × List FPElem),
      (acc.1.isSome → acc.2 ≠ []) →
      ((segs.foldl (fpStep tr) acc).1.isSome → (segs.foldl (fpStep tr) acc).2 ≠ [])
  | [], acc, hacc => hacc
  | seg :: segs, acc, hacc => by
    rw [List.foldl_cons]
    refine foldl_fpStep_ne tr segs (fpStep tr acc seg) ?_
    intro _
    rcases seg with ⟨x, y⟩ | ⟨x, y⟩ | ⟨x1, y1, x2, y2, x, y⟩ | _ <;>
      simp [fpStep]

theorem new_elems_ne (p : SPath) (fp : PathFingerprint) :
    PathFingerprint.new p = some fp → fp.elems ≠ [] := by
  intro h
  have h' : Option.map
      (fun s => PathFingerprint.mk (p.data.foldl (fpStep p.transform) (none, [])).2 s)
      (p.data.foldl (fpStep p.transform) (none, [])).1 = some fp := h
  rcases hr : (p.data.foldl (fpStep p.transform) (none, [])).1 with _ | s
  · rw [hr] at h'
    exact Option.noConfusion h'
  · rw [hr] at h'
    have he : fp = { elems := (p.data.foldl (fpStep p.transform) (none, [])).2, shift := s } :=
      (Option.some_inj.mp h').symm
    rw [he]
    have := foldl_fpStep_ne p.transform p.data (none, [])
      (fun hs _ => Option.noConfusion (Option.isSome_iff_exists.mp hs).choose_spec)
    exact this (by rw [hr]; rfl)

theorem foldl_firstSome_eq {α β : Type} (step : Option β → α → Option β)
    (hsome : ∀ (v : β) (pr : α), step (some v) pr = some v) :
    ∀ (l : List α) (v : β), l.foldl step (some v) = some v
  | [], _ => rfl
  | a :: l, v => by
    rw [List.foldl_cons, hsome]
    exact foldl_firstSome_eq step hsome l v

theorem foldl_firstSome_inv {α β : Type} (f : α → Option β) (step : Option β → α → Option β)
    (hsome : ∀ (v : β) (pr : α), step (some v) pr = some v)
    (hnone : ∀ pr : α, step none pr = f pr) :
    ∀ (l : List α) (acc : Option β) (r : β),
      l.foldl step acc = some r →
      acc = some r ∨ ∃ pr ∈ l, f pr = some r
  | [], acc, r, h => .inl h
  | a :: l, acc, r, h => by
    rw [List.foldl_cons] at h
    rcases acc with _ | v
    · rw [hnone] at h
      rcases foldl_firstSome_inv f step hsome hnone l (f a) r h with hacc | ⟨pr, hpr, hf⟩
      · exact .inr ⟨a, List.mem_cons_self _ _, hacc⟩
      · exact .inr ⟨pr, List.mem_cons_of_mem _ hpr, hf⟩
    · rw [hsome] at h
      rcases foldl_firstSome_inv f step hsome hnone l (some v) r h with hacc | ⟨pr, hpr, hf⟩
      · exact .inl hacc
      · exact .inr ⟨pr, List.mem_cons_of_mem _ hpr, hf⟩

theorem foldl_firstSome_all {α β : Type} (f : α → Option β) (step : Option β → α → Option β)
    (hsome : ∀ (v : β) (pr : α), step (some v) pr = some v)
    (hnone : ∀ pr : α, step none pr = f pr) :
    ∀ (l : List α) (v : β),
      (∀ pr ∈ l, f pr = none ∨ f pr = some v) →
      (∃ pr ∈ l, f pr = some v) →
      l.foldl step none = some v
  | [], v, _, hex => absurd hex (by simp)
  | a :: l, v, hall, hex => by
    rw [List.foldl_cons, hnone]
    rcases hfa : f a with _ | w
    · refine foldl_firstSome_all f step hsome hnone l v
        (fun pr hpr => hall pr (List.mem_cons_of_mem _ hpr)) ?_
      rcases hex with ⟨pr, hpr, hf⟩
      rcases List.mem_cons.mp hpr with he | hm
      · rw [he] at hf
        rw [hfa] at hf
        exact Option.noConfusion hf
      · exact ⟨pr, hm, hf⟩
    · have hw : w = v := by
        rcases hall a (List.mem_cons_self _ _) with hn | hs
        · rw [hn] at hfa
          exact Option.noConfusion hfa
        · rw [hs] at hfa
          exact Option.some_inj.mp hfa.symm
      rw [hw]
      exact foldl_firstSome_eq step hsome l v

theorem findRec_cmd (eps : ℚ) (c : PathCommand) (rest : List FPElem) (t : PathTree) :
    findRec eps (.cmd c :: rest) t =
      match getCmd c t.cmd_nodes with
      | some child => findRec eps rest child
      | none => none := rfl

theorem findRec_coord (eps : ℚ) (x : ℚ) (rest : List FPElem) (t : PathTree) :
    findRec eps (.coord x :: rest) t =
      ((coordRange (x - eps) (x + eps) t.coord_nodes).reverse).foldl
        (fun acc pr =>
          match acc with
          | some r => some r
          | none => findRec eps rest pr.2)
        none := rfl

theorem findRec_sound (eps : ℚ) :
    ∀ (query : List FPElem) (t : PathTree), TreeWF t →
      ∀ r, findRec eps query t = some r →
      ∃ su m, nodeAt su t = some m ∧ matchesB eps su query = true ∧ r = m.paths
  | [], t, _, r, h => by
    refine ⟨[], t, nodeAt_nil t, rfl, ?_⟩
    exact (Option.some_inj.mp h).symm
  | .cmd c :: rest, t, hwf, r, h => by
    rw [findRec_cmd] at h
    rcases hg : getCmd c t.cmd_nodes with _ | child
    · rw [hg] at h
      exact Option.noConfusion h
    · rw [hg] at h
      have hwfc : TreeWF child := by
        rcases hwf with ⟨cs, ks, ps, hcs, hks, hc, hk⟩
        exact hc (c, child) (getCmd_mem cs c child hg)
      obtain ⟨su', m, hn, hm, hr⟩ := findRec_sound eps rest child hwfc r h
      refine ⟨.cmd c :: su', m, ?_, ?_, hr⟩
      · rw [nodeAt_cmd, hg]
        exact hn
      · rw [matchesB_cons, Bool.and_eq_true]
        exact ⟨by simp [keyMatches], hm⟩
  | .coord x :: rest, t, hwf, r, h => by
    rw [findRec_coord] at h
    rcases foldl_firstSome_inv (fun pr : ℚ × PathTree => findRec eps rest pr.2) _
      (fun v pr => rfl) (fun pr => rfl) _ none r h with
      hacc | ⟨pr, hpr, hf⟩
    · exact Option.noConfusion hacc
    · rcases pr with ⟨k1, t1⟩
      rw [List.mem_reverse] at hpr
      have hmem := List.mem_filter.mp hpr
      have hks : (k1, t1) ∈ t.coord_nodes := hmem.1
      have hbounds := hmem.2
      rw [Bool.and_eq_true, decide_eq_true_eq, decide_eq_true_eq] at hbounds
      have hwfc : TreeWF t1 := by
        rcases hwf with ⟨cs, ks, ps, hcs, hks', hc, hk⟩
        exact hk (k1, t1) hks
      obtain ⟨su', m, hn, hm, hr⟩ := findRec_sound eps rest t1 hwfc r hf
      refine ⟨.coord k1 :: su', m, ?_, ?_, hr⟩
      · rw [nodeAt_coord]
        have hsorted : List.Pairwise (fun a b : ℚ × PathTree => a.1 < b.1) t.coord_nodes := by
          rcases hwf with ⟨cs, ks, ps, hcs, hks', hc, hk⟩
          exact hks'
        rw [getCoord_of_mem t.coord_nodes k1 t1 hsorted hks]
        exact hn
      · rw [matchesB_cons, Bool.and_eq_true]
        refine ⟨?_, hm⟩
        rw [show keyMatches eps (.coord k1) (.coord x) =
          (decide (x - eps ≤ k1) && decide (k1 ≤ x + eps)) from rfl]
        rw [Bool.and_eq_true, decide_eq_true_eq, decide_eq_true_eq]
        exact hbounds

theorem findRec_complete (eps : ℚ) :
    ∀ (query : List FPElem) (t : PathTree), TreeWF t →
      ∀ (su0 : List FPElem) (nd0 : PathTree),
      nodeAt su0 t = some nd0 → matchesB eps su0 query = true →
      (∀ su m, nodeAt su t = some m → matchesB eps su query = true → su = su0) →
      findRec eps query t = some nd0.paths
  | [], t, _, su0, nd0, hn, hm, _ => by
    rcases su0 with _ | ⟨e, su0'⟩
    · rw [nodeAt_nil] at hn
      rw [← Option.some_inj.mp hn]
      rfl
    · exact Bool.noConfusion hm
  | .cmd c :: rest, t, hwf, su0, nd0, hn, hm, huniq => by
    rcases su0 with _ | ⟨e0, su0'⟩
    · exact Bool.noConfusion hm
    · rcases e0 with c0 | k0
      · rw [matchesB_cons, Bool.and_eq_true] at hm
        have hc0 : c0 = c := by
          have := hm.1
          rw [show keyMatches eps (.cmd c0) (.cmd c) = decide (c0 = c) from rfl,
            decide_eq_true_eq] at this
          exact this
        subst hc0
        rw [nodeAt_cmd] at hn
        rcases hg : getCmd c0 t.cmd_nodes with _ | child
        · rw [hg] at hn
          exact Option.noConfusion hn
        · rw [hg] at hn
          have hwfc : TreeWF child := by
            rcases hwf with ⟨cs, ks, ps, hcs, hks, hc, hk⟩
            exact hc (c0, child) (getCmd_mem cs c0 child hg)
          rw [findRec_cmd, hg]
          refine findRec_complete eps rest child hwfc su0' nd0 hn hm.2 ?_
          intro su m hnm hmb
          have := huniq (.cmd c0 :: su) m
            (by rw [nodeAt_cmd, hg]; exact hnm)
            (by rw [matchesB_cons, Bool.and_eq_true]
                exact ⟨by simp [keyMatches], hmb⟩)
          injection this
      · rw [matchesB_cons, Bool.and_eq_true] at hm
        exact Bool.noConfusion hm.1
  | .coord x :: rest, t, hwf, su0, nd0, hn, hm, huniq => by
    rcases su0 with _ | ⟨e0, su0'⟩
    · exact Bool.noConfusion hm
    · rcases e0 with c0 | k0
      · rw [matchesB_cons, Bool.and_eq_true] at hm
        exact Bool.noConfusion hm.1
      · rw [matchesB_cons, Bool.and_eq_true] at hm
        have hb := hm.1
        rw [show keyMatches eps (.coord k0) (.coord x) =
          (decide (x - eps ≤ k0) && decide (k0 ≤ x + eps)) from rfl,
          Bool.and_eq_true, decide_eq_true_eq, decide_eq_true_eq] at hb
        rw [nodeAt_coord] at hn
        rcases hg : getCoord k0 t.coord_nodes with _ | child0
        · rw [hg] at hn
          exact Option.noConfusion hn
        · rw [hg] at hn
          have hsorted : List.Pairwise (fun a b : ℚ × PathTree => a.1 < b.1) t.coord_nodes := by
            rcases hwf with ⟨cs, ks, ps, hcs, hks, hc, hk⟩
            exact hks
          have hwfchild : ∀ pr : ℚ × PathTree, pr ∈ t.coord_nodes → TreeWF pr.2 := by
            rcases hwf with ⟨cs, ks, ps, hcs, hks, hc, hk⟩
            exact hk
          rw [findRec_coord]
          refine foldl_firstSome_all (fun pr : ℚ × PathTree => findRec eps rest pr.2) _
            (fun v pr => rfl) (fun pr => rfl) _ nd0.paths ?_ ?_
          · intro pr hpr
            rcases pr with ⟨k1, t1⟩
            rw [List.mem_reverse] at hpr
            have hmem := List.mem_filter.mp hpr
            have hks1 : (k1, t1) ∈ t.coord_nodes := hmem.1
            have hbounds := hmem.2
            rw [Bool.and_eq_true, decide_eq_true_eq, decide_eq_true_eq] at hbounds
            rcases hf : findRec eps rest t1 with _ | r
            · exact .inl hf
            · refine .inr ?_
              obtain ⟨su', m', hn', hm', hr'⟩ :=
                findRec_sound eps rest t1 (hwfchild (k1, t1) hks1) r hf
              have hsu := huniq (.coord k1 :: su') m'
                (by rw [nodeAt_coord, getCoord_of_mem t.coord_nodes k1 t1 hsorted hks1]
                    exact hn')
                (by rw [matchesB_cons, Bool.and_eq_true]
                    refine ⟨?_, hm'⟩
                    rw [show keyMatches eps (.coord k1) (.coord x) =
                      (decide (x - eps ≤ k1) && decide (k1 ≤ x + eps)) from rfl,
                      Bool.and_eq_true, decide_eq_true_eq, decide_eq_true_eq]
                    exact hbounds)
              injection hsu with h1 h2
              injection h1 with h1'
              subst h1'
              subst h2
              have ht1 : t1 = child0 := by
                have hgc := getCoord_of_mem t.coord_nodes _ t1 hsorted hks1
                rw [hg] at hgc
                exact Option.some_inj.mp hgc.symm
              subst ht1
              have hmn : m' = nd0 := Option.some_inj.mp (hn'.symm.trans hn)
              rw [hr', hmn] at hf
              exact hf
          · refine ⟨(k0, child0), ?_, ?_⟩
            · rw [List.mem_reverse]
              rw [coordRange, List.mem_filter]
              refine ⟨getCoord_mem t.coord_nodes k0 child0 hg, ?_⟩
              rw [Bool.and_eq_true, decide_eq_true_eq, decide_eq_true_eq]
              exact hb
            · refine findRec_complete eps rest child0
                (hwfchild (k0, child0) (getCoord_mem t.coord_nodes k0 child0 hg))
                su0' nd0 hn hm.2 ?_
              intro su m hnm hmb
              have := huniq (.coord k0 :: su) m
                (by rw [nodeAt_coord, hg]; exact hnm)
                (by rw [matchesB_cons, Bool.and_eq_true]
                    refine ⟨?_, hmb⟩
                    rw [show keyMatches eps (.coord k0) (.coord x) =
                      (decide (x - eps ≤ k0) && decide (k0 ≤ x + eps)) from rfl,
                      Bool.and_eq_true, decide_eq_true_eq, decide_eq_true_eq]
                    exact hb)
              injection this

theorem markReferred_length :
    ∀ (l : List (PState × PathFingerprint)) (idx : ℕ),
      (markReferred l idx).length = l.length
  | [], _ => rfl
  | _ :: rest, 0 => rfl
  | e :: rest, n + 1 => by
    rw [show markReferred (e :: rest) (n + 1) = e :: markReferred rest n from rfl]
    rw [List.length_cons, List.length_cons, markReferred_length rest n]

theorem markReferred_getElem :
    ∀ (l : List (PState × PathFingerprint)) (idx k : ℕ),
      (markReferred l idx)[k]? =
        if k = idx then (l[k]?).map (fun e => (PState.referred, e.2)) else l[k]?
  | [], idx, k => by
    rw [show markReferred [] idx = [] from rfl]
    by_cases h : k = idx
    · rw [if_pos h]
      simp
    · rw [if_neg h]
  | e :: rest, 0, k => by
    rw [show markReferred (e :: rest) 0 = (PState.referred, e.2) :: rest from rfl]
    rcases k with _ | k'
    · rw [if_pos rfl]
      simp
    · rw [if_neg (Nat.succ_ne_zero k')]
      simp
  | e :: rest, n + 1, k => by
    rw [show markReferred (e :: rest) (n + 1) = e :: markReferred rest n from rfl]
    rcases k with _ | k'
    · rw [if_neg (Ne.symm (Nat.succ_ne_zero n))]
      rw [List.getElem?_cons_zero, List.getElem?_cons_zero]
    · rw [List.getElem?_cons_succ, List.getElem?_cons_succ,
        markReferred_getElem rest n k']
      by_cases h : k' = n
      · rw [if_pos h, if_pos (by rw [h])]
      · rw [if_neg h, if_neg (by intro hx; exact h (Nat.succ_injective hx))]

theorem optStep_isnone (eps : ℚ) (st : OptState) (p : SPath)
    (hfp : PathFingerprint.new p = none) : optStep eps st p = none := by
  unfold optStep
  rw [hfp]

theorem optStep_eq (eps : ℚ) (st : OptState) (p : SPath) (fp : PathFingerprint)
    (hfp : PathFingerprint.new p = some fp) :
    optStep eps st p =
      match (find_similar st.tree fp eps).find?
          (fun s => same_style s { p with id := st.states.length } eps) with
      | some similar =>
        some { tree := st.tree
               states := markReferred st.states similar.id ++ [(.referring similar.id, fp)] }
      | none =>
        some { tree := insertSlice { p with id := st.states.length } fp.elems st.tree
               states := st.states ++ [(.standalone, fp)] } := by
  unfold optStep
  rw [hfp]

theorem optStep_inv (eps : ℚ) (paths : List SPath) (st st' : OptState) (p : SPath)
    (hinv : OptInv paths st)
    (hp : paths[st.states.length]? = some p)
    (hstep : optStep eps st p = some st') :
    OptInv paths st' ∧ st'.states.length = st.states.length + 1 ∧
    (∀ (k : ℕ) (pr : PState × PathFingerprint), st.states[k]? = some pr →
      ∃ pr', st'.states[k]? = some pr' ∧ pr'.2 = pr.2 ∧
        pr'.1.isReferring = pr.1.isReferring ∧ (pr.1.isReferring = true → pr' = pr)) := by
  obtain ⟨hwf, hfpi, hnodei, hpathsi, hmemi⟩ := hinv
  rcases hfp : PathFingerprint.new p with _ | fp
  · rw [optStep_isnone eps st p hfp] at hstep
    exact Option.noConfusion hstep
  rw [optStep_eq eps st p fp hfp] at hstep
  rcases hfind : (find_similar st.tree fp eps).find?
      (fun s => same_style s { p with id := st.states.length } eps) with _ | similar
  · -- no similar path found: the fingerprint is inserted, state Standalone
    rw [hfind] at hstep
    have hst' := (Option.some_inj.mp hstep).symm
    subst hst'
    dsimp only
    have hgetn : (st.states ++ [((PState.standalone : PState), fp)])[st.states.length]? =
        some (PState.standalone, fp) := List.getElem?_concat_length _ _
    have hgetlt : ∀ (k : ℕ) (pr : PState × PathFingerprint), st.states[k]? = some pr →
        (st.states ++ [((PState.standalone : PState), fp)])[k]? = some pr := by
      intro k pr h
      rw [List.getElem?_append_left (List.getElem?_eq_some.mp h).1]
      exact h
    have hsplit : ∀ (k : ℕ) (pr' : PState × PathFingerprint),
        (st.states ++ [((PState.standalone : PState), fp)])[k]? = some pr' →
        st.states[k]? = some pr' ∨
          (k = st.states.length ∧ pr' = (PState.standalone, fp)) := by
      intro k pr' h
      have hk := (List.getElem?_eq_some.mp h).1
      rw [List.length_append, List.length_singleton] at hk
      rcases Nat.lt_succ_iff_lt_or_eq.mp hk with hlt | heq
      · rw [List.getElem?_append_left hlt] at h
        exact .inl h
      · subst heq
        rw [hgetn] at h
        exact .inr ⟨rfl, (Option.some_inj.mp h).symm⟩
    refine ⟨⟨insertSlice_WF _ fp.elems st.tree hwf, ?_, ?_, ?_, ?_⟩, by simp, ?_⟩
    · -- state entries carry the input paths' fingerprints
      intro k pr h
      rcases hsplit k pr h with hold | ⟨hk, hpr⟩
      · exact hfpi k pr hold
      · subst hk
        subst hpr
        exact ⟨p, hp, hfp⟩
    · -- non-root nodes lie on a recorded branch
      intro su m hn hsu
      rcases nodeAt_insertSlice_inv _ fp.elems st.tree hwf su m hn with
        ⟨m0, hm0, _⟩ | ⟨_, hpre, _⟩
      · obtain ⟨k, pr, hst, href, hprefix⟩ := hnodei su m0 hm0 hsu
        exact ⟨k, pr, hgetlt k pr hst, href, hprefix⟩
      · exact ⟨st.states.length, (PState.standalone, fp), hgetn, rfl, hpre⟩
    · -- stored paths are recorded non-Referring entries
      intro su m hn q hq
      rcases nodeAt_insertSlice_inv _ fp.elems st.tree hwf su m hn with
        ⟨m0, hm0, hpaths⟩ | ⟨_, _, hpaths⟩
      · rw [hpaths] at hq
        rcases List.mem_append.mp hq with hq0 | hq1
        · obtain ⟨k, pr, p0, hst, href, hpk, hel, hqe⟩ := hpathsi su m0 hm0 q hq0
          exact ⟨k, pr, p0, hgetlt k pr hst, href, hpk, hel, hqe⟩
        · by_cases hse : su = fp.elems
          · rw [if_pos hse] at hq1
            exact ⟨st.states.length, (PState.standalone, fp), p, hgetn, rfl, hp, hse.symm,
              List.mem_singleton.mp hq1⟩
          · rw [if_neg hse] at hq1
            exact absurd hq1 (List.not_mem_nil q)
      · rw [hpaths] at hq
        by_cases hse : su = fp.elems
        · rw [if_pos hse] at hq
          exact ⟨st.states.length, (PState.standalone, fp), p, hgetn, rfl, hp, hse.symm,
            List.mem_singleton.mp hq⟩
        · rw [if_neg hse] at hq
          exact absurd hq (List.not_mem_nil q)
    · -- non-Referring entries are stored in the trie
      intro k pr h href
      rcases hsplit k pr h with hold | ⟨hk, hpr⟩
      · obtain ⟨p0, m, hp0, hn0, hmem0⟩ := hmemi k pr hold href
        obtain ⟨m1, hm1, hp1⟩ :=
          nodeAt_insertSlice_some { p with id := st.states.length } fp.elems st.tree hwf
            pr.2.elems m hn0
        refine ⟨p0, m1, hp0, hm1, ?_⟩
        rw [hp1]
        exact List.mem_append_left _ hmem0
      · subst hk
        subst hpr
        obtain ⟨m1, hm1, hp1⟩ :=
          nodeAt_insertSlice_self { p with id := st.states.length } fp.elems st.tree hwf
        exact ⟨p, m1, hp, hm1, hp1⟩
    · -- old entries are unchanged
      intro k pr h
      exact ⟨pr, hgetlt k pr h, rfl, rfl, fun _ => rfl⟩
  · -- a similar path was found: Referred/Referring marking
    rw [hfind] at hstep
    have hst' := (Option.some_inj.mp hstep).symm
    subst hst'
    dsimp only
    have hsim : ∃ (kS : ℕ) (prS : PState × PathFingerprint) (pS : SPath),
        st.states[kS]? = some prS ∧ prS.1.isReferring = false ∧
        paths[kS]? = some pS ∧ similar = { pS with id := kS } := by
      have hmemf := List.mem_of_find?_eq_some hfind
      rcases hfr : findRec eps fp.elems st.tree with _ | r
      · rw [show find_similar st.tree fp eps = (findRec eps fp.elems st.tree).getD [] from rfl,
          hfr] at hmemf
        exact absurd hmemf (List.not_mem_nil similar)
      · rw [show find_similar st.tree fp eps = (findRec eps fp.elems st.tree).getD [] from rfl,
          hfr, Option.getD_some] at hmemf
        obtain ⟨su, m, hn, hmB, hr⟩ := findRec_sound eps fp.elems st.tree hwf r hfr
        rw [hr] at hmemf
        obtain ⟨k, pr, p0, hst, href, hpk, _, hqe⟩ := hpathsi su m hn similar hmemf
        exact ⟨k, pr, p0, hst, href, hpk, hqe⟩
    obtain ⟨kS, prS, pS, hstS, hrefS, hpS, hsimEq⟩ := hsim
    have hsid : similar.id = kS := by rw [hsimEq]
    have hgetn : (markReferred st.states similar.id ++
        [((PState.referring similar.id : PState), fp)])[st.states.length]? =
        some (PState.referring similar.id, fp) := by
      have := List.getElem?_concat_length (markReferred st.states similar.id)
        ((PState.referring similar.id : PState), fp)
      rw [markReferred_length] at this
      exact this
    have hgetlt : ∀ (k : ℕ) (pr0 : PState × PathFingerprint), st.states[k]? = some pr0 →
        (markReferred st.states similar.id ++
          [((PState.referring similar.id : PState), fp)])[k]? =
          if k = similar.id then some (PState.referred, pr0.2) else some pr0 := by
      intro k pr0 h
      have hk : k < st.states.length := (List.getElem?_eq_some.mp h).1
      rw [List.getElem?_append_left (by rw [markReferred_length]; exact hk),
        markReferred_getElem, h]
      by_cases he : k = similar.id
      · rw [if_pos he, if_pos he]
        rfl
      · rw [if_neg he, if_neg he]
    have hsplit : ∀ (k : ℕ) (pr' : PState × PathFingerprint),
        (markReferred st.states similar.id ++
          [((PState.referring similar.id : PState), fp)])[k]? = some pr' →
        (∃ pr0, st.states[k]? = some pr0 ∧ pr'.2 = pr0.2 ∧
          pr'.1.isReferring = pr0.1.isReferring) ∨
        (k = st.states.length ∧ pr' = (PState.referring similar.id, fp)) := by
      intro k pr' h
      have hk := (List.getElem?_eq_some.mp h).1
      rw [List.length_append, List.length_singleton, markReferred_length] at hk
      rcases Nat.lt_succ_iff_lt_or_eq.mp hk with hlt | heq
      · left
        rw [List.getElem?_append_left (by rw [markReferred_length]; exact hlt),
          markReferred_getElem] at h
        by_cases he : k = similar.id
        · rw [if_pos he] at h
          rcases hs0 : st.states[k]? with _ | pr0
          · rw [hs0] at h
            exact Option.noConfusion h
          · rw [hs0] at h
            have hpr' : pr' = (PState.referred, pr0.2) := (Option.some_inj.mp h).symm
            have hkks : k = kS := by rw [he, hsid]
            have hpr0 : pr0 = prS := by
              rw [hkks] at hs0
              exact Option.some_inj.mp (hs0.symm.trans hstS)
            refine ⟨pr0, rfl, by rw [hpr'], ?_⟩
            rw [hpr', hpr0, hrefS]
            rfl
        · rw [if_neg he] at h
          exact ⟨pr', h, rfl, rfl⟩
      · right
        subst heq
        rw [hgetn] at h
        exact ⟨rfl, (Option.some_inj.mp h).symm⟩
    refine ⟨⟨hwf, ?_, ?_, ?_, ?_⟩, by simp [markReferred_length], ?_⟩
    · intro k pr h
      rcases hsplit k pr h with ⟨pr0, hs0, h2, _⟩ | ⟨hk, hpr⟩
      · obtain ⟨pp, hpp, hnew⟩ := hfpi k pr0 hs0
        exact ⟨pp, hpp, by rw [h2]; exact hnew⟩
      · subst hk
        subst hpr
        exact ⟨p, hp, hfp⟩
    · intro su m hn hsu
      obtain ⟨k, pr0, hs0, href0, hpre⟩ := hnodei su m hn hsu
      have hmap := hgetlt k pr0 hs0
      by_cases he : k = similar.id
      · rw [if_pos he] at hmap
        exact ⟨k, (PState.referred, pr0.2), hmap, rfl, hpre⟩
      · rw [if_neg he] at hmap
        exact ⟨k, pr0, hmap, href0, hpre⟩
    · intro su m hn q hq
      obtain ⟨k, pr0, p0, hs0, href0, hpk, hel, hqe⟩ := hpathsi su m hn q hq
      have hmap := hgetlt k pr0 hs0
      by_cases he : k = similar.id
      · rw [if_pos he] at hmap
        exact ⟨k, (PState.referred, pr0.2), p0, hmap, rfl, hpk, hel, hqe⟩
      · rw [if_neg he] at hmap
        exact ⟨k, pr0, p0, hmap, href0, hpk, hel, hqe⟩
    · intro k pr' h href'
      rcases hsplit k pr' h with ⟨pr0, hs0, h2, h3⟩ | ⟨hk, hpr⟩
      · have href0 : pr0.1.isReferring = false := by rw [← h3]; exact href'
        obtain ⟨p0, m, hp0, hn0, hm0⟩ := hmemi k pr0 hs0 href0
        exact ⟨p0, m, hp0, by rw [h2]; exact hn0, hm0⟩
      · subst hpr
        exact absurd href' (by simp [PState.isReferring])
    · intro k pr h
      have hmap := hgetlt k pr h
      by_cases he : k = similar.id
      · rw [if_pos he] at hmap
        have hkks : k = kS := by rw [he, hsid]
        have hprS : pr = prS := by
          rw [hkks] at h
          exact Option.some_inj.mp (h.symm.trans hstS)
        refine ⟨(PState.referred, pr.2), hmap, rfl, ?_, ?_⟩
        · rw [hprS, hrefS]
          rfl
        · intro htrue
          rw [hprS, hrefS] at htrue
          exact Bool.noConfusion htrue
      · rw [if_neg he] at hmap
        exact ⟨pr, hmap, rfl, rfl, fun _ => rfl⟩

theorem OptInv_init (paths : List SPath) :
    OptInv paths { tree := PathTree.empty, states := [] } := by
  refine ⟨TreeWF_empty, ?_, ?_, ?_, ?_⟩
  · intro k pr h
    simp at h
  · intro su m hn hsu
    obtain ⟨he, _⟩ := nodeAt_empty su m hn
    exact absurd he hsu
  · intro su m hn q hq
    obtain ⟨_, hm⟩ := nodeAt_empty su m hn
    rw [hm] at hq
    exact absurd hq (List.not_mem_nil q)
  · intro k pr h
    simp at h

theorem foldlM_optStep_run (eps : ℚ) (paths : List SPath) :
    ∀ (l : List SPath) (st st' : OptState),
      OptInv paths st →
      (∀ (idx : ℕ) (p : SPath), l[idx]? = some p →
        paths[st.states.length + idx]? = some p) →
      l.foldlM (optStep eps) st = some st' →
      OptInv paths st' ∧ st'.states.length = st.states.length + l.length ∧
      (∀ (k : ℕ) (pr : PState × PathFingerprint), st.states[k]? = some pr →
        ∃ pr', st'.states[k]? = some pr' ∧ pr'.2 = pr.2 ∧
          pr'.1.isReferring = pr.1.isReferring ∧ (pr.1.isReferring = true → pr' = pr))
  | [], st, st', hinv, _, hrun => by
    have heq : st = st' := Option.some_inj.mp hrun
    subst heq
    exact ⟨hinv, by simp, fun k pr h => ⟨pr, h, rfl, rfl, fun _ => rfl⟩⟩
  | p :: l, st, st', hinv, hcorr, hrun => by
    rw [List.foldlM_cons] at hrun
    rcases hstep : optStep eps st p with _ | st1
    · rw [hstep] at hrun
      exact Option.noConfusion hrun
    · rw [hstep] at hrun
      have hrun' : l.foldlM (optStep eps) st1 = some st' := hrun
      have hp : paths[st.states.length]? = some p := by
        have := hcorr 0 p (by rw [List.getElem?_cons_zero])
        rw [Nat.add_zero] at this
        exact this
      obtain ⟨hinv1, hlen1, hstab1⟩ := optStep_inv eps paths st st1 p hinv hp hstep
      have hcorr1 : ∀ (idx : ℕ) (q : SPath), l[idx]? = some q →
          paths[st1.states.length + idx]? = some q := by
        intro idx q hq
        rw [hlen1]
        have := hcorr (idx + 1) q (by rw [List.getElem?_cons_succ]; exact hq)
        rw [show st.states.length + 1 + idx = st.states.length + (idx + 1) by omega]
        exact this
      obtain ⟨hinv', hlen', hstab'⟩ := foldlM_optStep_run eps paths l st1 st' hinv1 hcorr1 hrun'
      refine ⟨hinv', by rw [hlen', hlen1, List.length_cons]; omega, ?_⟩
      intro k pr h
      obtain ⟨pr1, h1, h2, h3, h4⟩ := hstab1 k pr h
      obtain ⟨pr', h1', h2', h3', h4'⟩ := hstab' k pr1 h1
      refine ⟨pr', h1', by rw [h2', h2], by rw [h3', h3], ?_⟩
      intro htrue
      have hpr1 : pr1 = pr := h4 htrue
      have htrue1 : pr1.1.isReferring = true := by rw [hpr1]; exact htrue
      rw [h4' htrue1, hpr1]

theorem same_style_id (a b : SPath) (x y : ℕ) (eps : ℚ) :
    same_style { a with id := x } { b with id := y } eps = same_style a b eps := rfl

theorem optStep_hit (eps : ℚ) (paths : List SPath) (stJ stJ' : OptState) (pJ : SPath)
    (i : ℕ) (pI : SPath) (fpI fpJ : PathFingerprint)
    (hinv : OptInv paths stJ)
    (hstep : optStep eps stJ pJ = some stJ')
    (hfj : PathFingerprint.new pJ = some fpJ)
    (hpi : paths[i]? = some pI)
    (hfi : PathFingerprint.new pI = some fpI)
    (hiJ : ∃ prI, stJ.states[i]? = some prI ∧ prI.1.isReferring = false)
    (hmatch : matchesB eps fpI.elems fpJ.elems = true)
    (hstyle : same_style pI pJ eps = true)
    (huniqJ : ∀ (k : ℕ) (prK : PState × PathFingerprint), stJ.states[k]? = some prK →
      prK.1.isReferring = false →
      matchesB eps (prK.2.elems.take fpJ.elems.length) fpJ.elems = true →
      prK.2.elems.take fpJ.elems.length = fpI.elems) :
    ∃ r, r < stJ.states.length ∧
      stJ'.states[stJ.states.length]? = some (.referring r, fpJ) := by
  obtain ⟨hwf, hfpi, hnodei, hpathsi, hmemi⟩ := hinv
  obtain ⟨prI, hsI, hrefI⟩ := hiJ
  have hprI2 : prI.2 = fpI := by
    obtain ⟨p0, hp0, hnew0⟩ := hfpi i prI hsI
    have hpp : p0 = pI := Option.some_inj.mp (hp0.symm.trans hpi)
    rw [hpp] at hnew0
    exact Option.some_inj.mp (hnew0.symm.trans hfi)
  obtain ⟨p0, nd0, hp0, hnd0, hmem0⟩ := hmemi i prI hsI hrefI
  have hp0I : p0 = pI := Option.some_inj.mp (hp0.symm.trans hpi)
  rw [hp0I] at hmem0
  have hfpJne : fpJ.elems ≠ [] := new_elems_ne pJ fpJ hfj
  have hUniqNodes : ∀ (su : List FPElem) (m : PathTree), nodeAt su stJ.tree = some m →
      matchesB eps su fpJ.elems = true → su = fpI.elems := by
    intro su m hn hmb
    by_cases hsu : su = []
    · rcases he : fpJ.elems with _ | ⟨e, es⟩
      · exact absurd he hfpJne
      · rw [hsu, he] at hmb
        exact Bool.noConfusion hmb
    · obtain ⟨k, prK, hsk, hrefk, hpre⟩ := hnodei su m hn hsu
      have hlen : su.length = fpJ.elems.length := matchesB_length eps su fpJ.elems hmb
      have hsu_take : su = prK.2.elems.take fpJ.elems.length := by
        have hpt := List.prefix_iff_eq_take.mp hpre
        rw [hlen] at hpt
        exact hpt
      have hfix : prK.2.elems.take fpJ.elems.length = fpI.elems :=
        huniqJ k prK hsk hrefk (by rw [← hsu_take]; exact hmb)
      rw [hsu_take, hfix]
  have hnd0' : nodeAt fpI.elems stJ.tree = some nd0 := by rw [← hprI2]; exact hnd0
  have hfind : findRec eps fpJ.elems stJ.tree = some nd0.paths :=
    findRec_complete eps fpJ.elems stJ.tree hwf fpI.elems nd0 hnd0' hmatch hUniqNodes
  have hstyleI : same_style { pI with id := i } { pJ with id := stJ.states.length } eps = true := by
    rw [same_style_id]
    exact hstyle
  have hfindsome : ∃ s, nd0.paths.find?
      (fun s => same_style s { pJ with id := stJ.states.length } eps) = some s := by
    have hex : ∃ x ∈ nd0.paths, same_style x { pJ with id := stJ.states.length } eps = true :=
      ⟨{ pI with id := i }, hmem0, hstyleI⟩
    exact Option.isSome_iff_exists.mp (List.find?_isSome.mpr hex)
  obtain ⟨s, hfs⟩ := hfindsome
  have hsmem := List.mem_of_find?_eq_some hfs
  obtain ⟨k, prK, pK, hsk, hrefk, hpk, hels, hse⟩ := hpathsi fpI.elems nd0 hnd0' s hsmem
  have hklt : k < stJ.states.length := (List.getElem?_eq_some.mp hsk).1
  have hsid : s.id = k := by rw [hse]
  rw [optStep_eq eps stJ pJ fpJ hfj] at hstep
  have hfs_eq : find_similar stJ.tree fpJ eps = nd0.paths := by
    rw [show find_similar stJ.tree fpJ eps = (findRec eps fpJ.elems stJ.tree).getD [] from rfl,
      hfind, Option.getD_some]
  rw [hfs_eq, hfs] at hstep
  have hst' := (Option.some_inj.mp hstep).symm
  subst hst'
  refine ⟨s.id, by rw [hsid]; exact hklt, ?_⟩
  dsimp only
  have hconcat := List.getElem?_concat_length (markReferred stJ.states s.id)
    ((PState.referring s.id : PState), fpJ)
  rw [markReferred_length] at hconcat
  exact hconcat

/-- **C1** (amended).  In one optimizer pass, if path `j` comes after path `i`,
their fingerprints match elementwise within `eps` (same command tokens, every
coordinate within `eps`) and their styles are equal, `i` ends the pass
non-`Referring` (i.e. it was inserted into the trie), and among the
non-`Referring` paths before `j` only `i`'s fingerprint-element prefix of the
query's length matches the query fingerprint, then path `j` is classified
`Referring(r)` for some earlier index `r`.  (Without the uniqueness hypothesis
the claim is false: the depth-first search of `find_similar` returns only the
first matching trie node, see the counterexample.) -/
theorem C1_duplicate_classification
    (paths : List SPath) (eps : ℚ) (states : List (PState × PathFingerprint))
    (i j : ℕ) (pI pJ : SPath) (fpI fpJ : PathFingerprint)
    (hrun : optimizePass paths eps = some states)
    (hij : i < j)
    (hpi : paths[i]? = some pI) (hpj : paths[j]? = some pJ)
    (hfi : PathFingerprint.new pI = some fpI)
    (hfj : PathFingerprint.new pJ = some fpJ)
    (hmatch : matchesB eps fpI.elems fpJ.elems = true)
    (hstyle : same_style pI pJ eps = true)
    (hIns : ∃ prI, states[i]? = some prI ∧ prI.1.isReferring = false)
    (huniq : ∀ (k : ℕ), k < j → ∀ (prK : PState × PathFingerprint), states[k]? = some prK →
      prK.1.isReferring = false →
      matchesB eps (prK.2.elems.take fpJ.elems.length) fpJ.elems = true →
      prK.2.elems.take fpJ.elems.length = fpI.elems) :
    ∃ r, r < j ∧ states[j]? = some (.referring r, fpJ) := by
  unfold optimizePass at hrun
  rcases hfold : paths.foldlM (optStep eps) { tree := PathTree.empty, states := [] } with _ | stF
  · rw [hfold] at hrun
    exact Option.noConfusion hrun
  rw [hfold] at hrun
  have hstates : stF.states = states := Option.some_inj.mp hrun
  have hjlt : j < paths.length := (List.getElem?_eq_some.mp hpj).1
  have hdrop : paths.drop j = pJ :: paths.drop (j + 1) := by
    rw [List.drop_eq_getElem_cons hjlt]
    congr 1
    have h2 := List.getElem?_eq_getElem hjlt
    exact Option.some_inj.mp (h2.symm.trans hpj)
  have hsplitL : paths = paths.take j ++ (pJ :: paths.drop (j + 1)) := by
    conv_lhs => rw [← List.take_append_drop j paths]
    rw [hdrop]
  have hfold' := hfold
  rw [show paths.foldlM (optStep eps) { tree := PathTree.empty, states := [] } =
      (paths.take j ++ (pJ :: paths.drop (j + 1))).foldlM (optStep eps)
        { tree := PathTree.empty, states := [] } by rw [← hsplitL]] at hfold'
  rw [List.foldlM_append] at hfold'
  rcases hfoldJ : (paths.take j).foldlM (optStep eps)
      { tree := PathTree.empty, states := [] } with _ | stJ
  · rw [hfoldJ] at hfold'
    exact Option.noConfusion hfold'
  rw [hfoldJ] at hfold'
  have hfold'' : (pJ :: paths.drop (j + 1)).foldlM (optStep eps) stJ = some stF := hfold'
  rw [List.foldlM_cons] at hfold''
  rcases hstepJ : optStep eps stJ pJ with _ | stJ'
  · rw [hstepJ] at hfold''
    exact Option.noConfusion hfold''
  rw [hstepJ] at hfold''
  have hrest : (paths.drop (j + 1)).foldlM (optStep eps) stJ' = some stF := hfold''
  have hcorrJ : ∀ (idx : ℕ) (q : SPath), (paths.take j)[idx]? = some q →
      paths[({ tree := PathTree.empty, states := [] } : OptState).states.length + idx]? =
        some q := by
    intro idx q hq
    have hidx : idx < j := by
      have := (List.getElem?_eq_some.mp hq).1
      rw [List.length_take] at this
      omega
    rw [List.getElem?_take, if_pos hidx] at hq
    show paths[0 + idx]? = some q
    rw [Nat.zero_add]
    exact hq
  obtain ⟨hinvJ, hlenJ, _⟩ := foldlM_optStep_run eps paths (paths.take j) _ stJ
    (OptInv_init paths) hcorrJ hfoldJ
  have hlenJ' : stJ.states.length = j := by
    rw [hlenJ, List.length_take]
    simp
    omega
  obtain ⟨hinvJ', hlenJ1, hstabJ⟩ := optStep_inv eps paths stJ stJ' pJ hinvJ
    (by rw [hlenJ']; exact hpj) hstepJ
  have hcorrR : ∀ (idx : ℕ) (q : SPath), (paths.drop (j + 1))[idx]? = some q →
      paths[stJ'.states.length + idx]? = some q := by
    intro idx q hq
    rw [List.getElem?_drop] at hq
    rw [hlenJ1, hlenJ']
    exact hq
  obtain ⟨_, _, hstabR⟩ := foldlM_optStep_run eps paths (paths.drop (j + 1)) stJ' stF
    hinvJ' hcorrR hrest
  have hstab : ∀ (k : ℕ) (pr : PState × PathFingerprint), stJ.states[k]? = some pr →
      ∃ pr', states[k]? = some pr' ∧ pr'.2 = pr.2 ∧
        pr'.1.isReferring = pr.1.isReferring ∧ (pr.1.isReferring = true → pr' = pr) := by
    intro k pr h
    obtain ⟨pr1, h1, h2, h3, h4⟩ := hstabJ k pr h
    obtain ⟨pr2, h1', h2', h3', h4'⟩ := hstabR k pr1 h1
    rw [hstates] at h1'
    refine ⟨pr2, h1', by rw [h2', h2], by rw [h3', h3], ?_⟩
    intro htrue
    have hp1 : pr1 = pr := h4 htrue
    have ht1 : pr1.1.isReferring = true := by rw [hp1]; exact htrue
    rw [h4' ht1, hp1]
  have hiJ : ∃ prI0, stJ.states[i]? = some prI0 ∧ prI0.1.isReferring = false := by
    have hilt : i < stJ.states.length := by rw [hlenJ']; exact hij
    rcases hsi : stJ.states[i]? with _ | prI0
    · have := List.getElem?_eq_getElem hilt
      rw [hsi] at this
      exact Option.noConfusion this
    · refine ⟨prI0, rfl, ?_⟩
      obtain ⟨prIF, hF, _, hrefEq, _⟩ := hstab i prI0 hsi
      obtain ⟨prI, hsIF, hrefIF⟩ := hIns
      have hFI : prIF = prI := Option.some_inj.mp (hF.symm.trans hsIF)
      rw [← hrefEq, hFI]
      exact hrefIF
  have huniqJ : ∀ (k : ℕ) (prK : PState × PathFingerprint), stJ.states[k]? = some prK →
      prK.1.isReferring = false →
      matchesB eps (prK.2.elems.take fpJ.elems.length) fpJ.elems = true →
      prK.2.elems.take fpJ.elems.length = fpI.elems := by
    intro k prK hsk hrefk hmk
    have hklt : k < j := by
      have := (List.getElem?_eq_some.mp hsk).1
      rw [hlenJ'] at this
      exact this
    obtain ⟨prK', hsF, h2, h3, _⟩ := hstab k prK hsk
    have hrefk' : prK'.1.isReferring = false := by rw [h3]; exact hrefk
    have hmk' : matchesB eps (prK'.2.elems.take fpJ.elems.length) fpJ.elems = true := by
      rw [h2]
      exact hmk
    have hres := huniq k hklt prK' hsF hrefk' hmk'
    rw [h2] at hres
    exact hres
  obtain ⟨r, hrlt, hentry⟩ := optStep_hit eps paths stJ stJ' pJ i pI fpI fpJ hinvJ hstepJ
    hfj hpi hfi hiJ hmatch hstyle huniqJ
  obtain ⟨prF, hF, _, _, h4⟩ := hstabR stJ.states.length (.referring r, fpJ) hentry
  have hprF : prF = (.referring r, fpJ) := h4 rfl
  rw [hstates] at hF
  refine ⟨r, by rw [← hlenJ']; exact hrlt, ?_⟩
  rw [← hlenJ', hF, hprF]

/-- **C1** (counterexample to the claim as stated).  In the document
`[pathA, pathB, pathC]` with `eps = 1/10`, `pathC` (processed last) has the
identical command sequence as `pathA`, every fingerprint coordinate equal
(hence within `eps`) and the identical style, yet the pass classifies all
three paths `Standalone`: the depth-first search explores the `10.05`
branch created by `pathB` first (descending coordinate order), returns only
`pathB`, the style comparison with the red `pathB` fails, and `pathA` is
never considered. -/
theorem C1_counterexample :
    PathFingerprint.new pathA = some fpA ∧
    PathFingerprint.new pathC = some fpC ∧
    matchesB (1 / 10) fpA.elems fpC.elems = true ∧
    same_style pathA pathC (1 / 10) = true ∧
    optimizePass [pathA, pathB, pathC] (1 / 10) =
      some [(.standalone, fpA), (.standalone, fpB), (.standalone, fpC)] ∧
    PState.isReferring .standalone = false := by
  refine ⟨?_, ?_, ?_, ?_, ?_, rfl⟩
  · with_unfolding_all rfl
  · with_unfolding_all rfl
  · with_unfolding_all decide
  · with_unfolding_all decide
  · with_unfolding_all rfl

theorem C1_duplicate_classification_witness :
    ∃ r, r < 1 ∧
      [((PState.referred : PState), fpA), (PState.referring 0, fpC)][1]? =
        some (.referring r, fpC) := by
  refine C1_duplicate_classification [pathA, pathC] (1 / 10)
    [(.referred, fpA), (.referring 0, fpC)] 0 1 pathA pathC fpA fpC
    ?_ (by decide) rfl rfl ?_ ?_ ?_ ?_ ?_ ?_
  · with_unfolding_all rfl
  · with_unfolding_all rfl
  · with_unfolding_all rfl
  · with_unfolding_all decide
  · with_unfolding_all decide
  · exact ⟨(.referred, fpA), rfl, rfl⟩
  · intro k hk prK hsk hrefk hmk
    have hk0 : k = 0 := by omega
    subst hk0
    have hpr : prK = (.referred, fpA) := by
      rw [List.getElem?_cons_zero] at hsk
      exact (Option.some_inj.mp hsk).symm
    subst hpr
    with_unfolding_all decide

end JustLatex
